import Mathlib

/-!
Verification of the Sudoku board module (sudoku_board.py).

The Board class stores a 9 by 9 grid of optional digits (data) together
with the frozen set of coordinates that held a digit at construction time
(static_digits_index).  This file gives a shallow embedding of the class:

- data is a list of rows, each a list of optional naturals; indexing uses
  getD with default values exactly where Python indexing is in range on
  the grids the claims quantify over (well-formed 9 by 9 grids).
- Python sets of digits become ascending duplicate-free lists; the solver
  pops candidates in a fixed deterministic order, matching the candidate
  order the claims condition on.
- The general recursion of recursion_solve is embedded with an explicit
  fuel argument counting recursion frames at non-sentinel coordinates
  (one frame per cell).  The theorem recursion_solve_total proves fuel 81
  always suffices from the start coordinate, so the fuel-exhaustion
  branch of is_solvable is unreachable and the embedding is total.
- Raising an exception in the setter is modelled by returning the
  unchanged board paired with false; mutation of the receiver is
  modelled by state passing (a method returns its result together with
  the state of the receiver after the call).
-/

/-- A cell of the grid: a digit or empty (the Python None). -/
abbrev Cell := Option Nat

/-- A coordinate: a (row, column) pair of naturals. -/
abbrev Coord := Nat × Nat

/-- The grid payload: a list of rows of cells. -/
abbrev GridData := List (List Cell)

/-- Reading data at row i, column j, with empty defaults out of range. -/
def cellAt (data : GridData) (i j : Nat) : Cell :=
  (data.getD i []).getD j none

/-- The set of coordinates holding a digit, as built by Board.__init__:
every (i, j) such that row i exists, position j exists in it, and the
element there is not None. -/
def staticIndex (data : GridData) : List Coord :=
  (List.range data.length).flatMap fun i =>
    (List.range (data.getD i []).length).filterMap fun j =>
      if (cellAt data i j).isSome then some (i, j) else none

/-- The Board class: the mutable grid plus the frozen static index. -/
structure Board where
  data : GridData
  static_digits_index : List Coord
deriving DecidableEq, Repr

/-- Board.__init__: store the data and derive the static index from the
non-empty entries. -/
def mkBoard (data : GridData) : Board :=
  { data := data, static_digits_index := staticIndex data }

/-- Board.__getitem__. -/
def Board.getItem (b : Board) (c : Coord) : Cell :=
  cellAt b.data c.1 c.2

/-- Board.is_available: the coordinate is not one of the initial digits. -/
def Board.is_available (b : Board) (c : Coord) : Bool :=
  decide (c ∉ b.static_digits_index)

/-- The raw assignment self.data[i][j] = value (no availability check). -/
def Board.forceSet (b : Board) (c : Coord) (v : Cell) : Board :=
  { b with data := b.data.set c.1 ((b.data.getD c.1 []).set c.2 v) }

/-- Board.__setitem__: assign when the coordinate is available, raise
otherwise.  The raised IndexError is modelled by the false flag together
with the unchanged board. -/
def Board.setItem (b : Board) (c : Coord) (v : Cell) : Board × Bool :=
  if b.is_available c then (b.forceSet c v, true) else (b, false)

/-- Board.next_coord: the successor coordinate in row-major order, with
(8, 8) mapped to the sentinel (9, 0). -/
def next_coord (c : Coord) : Coord :=
  (c.1 + (if c.2 = 8 then 1 else 0), (c.2 + 1) % 9)

/-- Board.get_digits_available: the digits 1 to 9 not present at another
coordinate of the row, column, or 3 by 3 block of the coordinate.  The
Python set becomes an ascending list. -/
def Board.get_digits_available (b : Board) (c : Coord) : List Nat :=
  let ii := c.1
  let jj := c.2
  let block_start_i := ii / 3 * 3
  let block_start_j := jj / 3 * 3
  let digits_in_block : List Cell :=
    (List.range 3).flatMap fun y =>
      (List.range 3).filterMap fun x =>
        if (block_start_i + y, block_start_j + x) ≠ c then
          some (cellAt b.data (block_start_i + y) (block_start_j + x))
        else none
  let digits_in_row : List Cell :=
    (List.range 9).filterMap fun x =>
      if x ≠ jj then some (cellAt b.data ii x) else none
  let digits_in_column : List Cell :=
    (List.range 9).filterMap fun y =>
      if y ≠ ii then some (cellAt b.data y jj) else none
  (List.range' 1 9).filter fun d =>
    decide (some d ∉ digits_in_block ∧ some d ∉ digits_in_column ∧
      some d ∉ digits_in_row)

/-- The consistency gate of Board.is_solvable: every static coordinate
holds a digit that is among its own available digits.  A static
coordinate holding None fails the gate, exactly as None fails the Python
membership test against a set of integers. -/
def staticConsistent (b : Board) : Bool :=
  b.static_digits_index.all fun c =>
    match b.getItem c with
    | some v => decide (v ∈ b.get_digits_available c)
    | none => false

/-- Board.is_solved: every coordinate has exactly one available digit. -/
def Board.is_solved (b : Board) : Bool :=
  (List.range 9).all fun i =>
    (List.range 9).all fun j =>
      decide ((b.get_digits_available (i, j)).length = 1)

/-- Board.recursion_solve: brute-force backtracking from a coordinate.
The fuel argument counts recursion frames entered at non-sentinel
coordinates; none reports fuel exhaustion (proved unreachable from the
start coordinate with fuel 81).  The while loop over the popped digits
is a left fold that carries the board being mutated and stops recursing
after the first success, exactly like the early return of the loop. -/
def recursion_solve (fuel : Nat) (b : Board) (c : Coord) :
    Option (Board × Bool) :=
  if c = (9, 0) then some (b, true)
  else
    match fuel with
    | 0 => none
    | n + 1 =>
      if b.is_available c then
        match (b.get_digits_available c).foldl
            (fun acc d =>
              match acc with
              | none => none
              | some (b2, true) => some (b2, true)
              | some (b2, false) =>
                  recursion_solve n (b2.forceSet c (some d)) (next_coord c))
            (some (b, false)) with
        | none => none
        | some (b2, true) => some (b2, true)
        | some (b2, false) => some (b2.forceSet c none, false)
      else recursion_solve n b (next_coord c)

/-- The private copy made at the top of Board.is_solvable: a fresh Board
built from a row-by-row copy of the data, so the static index is derived
anew from all currently non-empty cells. -/
def Board.new_board (b : Board) : Board :=
  mkBoard (b.data.map fun row => row)

/-- Board.is_solvable with the receiver state threaded through: the
result (the solved private copy, or none for the False return) paired
with the state of the receiver after the call.  The method only reads
self.data, so the receiver comes back unchanged on every path. -/
def Board.is_solvable_full (b : Board) : Option Board × Board :=
  let nb := b.new_board
  if staticConsistent nb then
    match recursion_solve 81 nb (0, 0) with
    | some (b2, _) => (if b2.is_solved then some b2 else none, b)
    | none => (none, b)
  else (none, b)

/-- Board.is_solvable, result component. -/
def Board.is_solvable (b : Board) : Option Board :=
  b.is_solvable_full.1

/-- The row-major index of a coordinate. -/
def cidx (c : Coord) : Nat := c.1 * 9 + c.2

/-- A coordinate of the 9 by 9 grid. -/
def inRange (c : Coord) : Prop := c.1 < 9 ∧ c.2 < 9

instance (c : Coord) : Decidable (inRange c) := by
  unfold inRange; infer_instance

/-- A well-formed 9 by 9 grid payload. -/
def WF (b : Board) : Prop :=
  b.data.length = 9 ∧ ∀ i, i < 9 → (b.data.getD i []).length = 9

instance (b : Board) : Decidable (WF b) := by
  unfold WF; infer_instance

/-- Two coordinates share a row, a column, or a 3 by 3 block. -/
def sameUnit (c c2 : Coord) : Prop :=
  c.1 = c2.1 ∨ c.2 = c2.2 ∨ (c.1 / 3 = c2.1 / 3 ∧ c.2 / 3 = c2.2 / 3)

instance (c c2 : Coord) : Decidable (sameUnit c c2) := by
  unfold sameUnit; infer_instance

/-! ## List helpers -/

theorem list_set_oob {α : Type} (l : List α) (j : Nat) (v : α)
    (h : l.length ≤ j) : l.set j v = l := by
  induction l generalizing j with
  | nil => rfl
  | cons a t ih =>
    cases j with
    | zero => simp at h
    | succ j => simp only [List.set]; rw [ih j (by simpa using h)]

theorem list_getD_set_self {α : Type} (l : List α) (j : Nat) (v d : α)
    (h : j < l.length) : (l.set j v).getD j d = v := by
  induction l generalizing j with
  | nil => simp at h
  | cons a t ih =>
    cases j with
    | zero => rfl
    | succ j => simpa using ih j (by simpa using h)

theorem list_getD_set_ne {α : Type} (l : List α) {i j : Nat} (v d : α)
    (h : i ≠ j) : (l.set i v).getD j d = l.getD j d := by
  induction l generalizing i j with
  | nil => rfl
  | cons a t ih =>
    cases i with
    | zero =>
      cases j with
      | zero => exact absurd rfl h
      | succ j => rfl
    | succ i =>
      cases j with
      | zero => rfl
      | succ j => simpa using ih (i := i) (j := j) (by omega)

theorem list_set_getD_id {α : Type} (l : List α) (j : Nat) (d : α) :
    l.set j (l.getD j d) = l := by
  induction l generalizing j with
  | nil => rfl
  | cons a t ih =>
    cases j with
    | zero => rfl
    | succ j => simpa using ih j

/-! ## Cell access and forceSet -/

theorem getItem_forceSet_self (b : Board) (c : Coord) (v : Cell)
    (hW : WF b) (hc : inRange c) : (b.forceSet c v).getItem c = v := by
  obtain ⟨hlen, hrow⟩ := hW
  obtain ⟨h1, h2⟩ := hc
  show cellAt (b.data.set c.1 ((b.data.getD c.1 []).set c.2 v)) c.1 c.2 = v
  unfold cellAt
  rw [list_getD_set_self _ _ _ _ (by omega)]
  exact list_getD_set_self _ _ _ _ (by have := hrow c.1 h1; omega)

theorem getItem_forceSet_ne (b : Board) (c c2 : Coord) (v : Cell)
    (h : c2 ≠ c) : (b.forceSet c v).getItem c2 = b.getItem c2 := by
  obtain ⟨ci, cj⟩ := c
  obtain ⟨xi, xj⟩ := c2
  show cellAt (b.data.set ci ((b.data.getD ci []).set cj v)) xi xj
      = cellAt b.data xi xj
  unfold cellAt
  by_cases hrow : ci = xi
  · have hcol : cj ≠ xj := by
      intro hc2; exact h (by rw [hrow, hc2])
    subst hrow
    by_cases hin : ci < b.data.length
    · rw [list_getD_set_self _ _ _ _ hin, list_getD_set_ne _ _ _ hcol]
    · rw [list_set_oob _ _ _ (by omega)]
  · rw [list_getD_set_ne _ _ _ hrow]

theorem forceSet_static (b : Board) (c : Coord) (v : Cell) :
    (b.forceSet c v).static_digits_index = b.static_digits_index := rfl

theorem forceSet_is_available (b : Board) (c : Coord) (v : Cell) (c2 : Coord) :
    (b.forceSet c v).is_available c2 = b.is_available c2 := rfl

theorem forceSet_forceSet (b : Board) (c : Coord) (v w : Cell) :
    (b.forceSet c v).forceSet c w = b.forceSet c w := by
  show Board.mk _ _ = Board.mk _ _
  congr 1
  show (b.data.set c.1 ((b.data.getD c.1 []).set c.2 v)).set c.1
        (((b.data.set c.1 ((b.data.getD c.1 []).set c.2 v)).getD c.1 []).set c.2 w)
      = b.data.set c.1 ((b.data.getD c.1 []).set c.2 w)
  by_cases hin : c.1 < b.data.length
  · rw [list_getD_set_self _ _ _ _ hin, List.set_set, List.set_set]
  · have hX : b.data.set c.1 ((b.data.getD c.1 []).set c.2 v) = b.data :=
      list_set_oob _ _ _ (by omega)
    rw [hX]

theorem forceSet_self_id (b : Board) (c : Coord) :
    b.forceSet c (b.getItem c) = b := by
  show Board.mk _ _ = Board.mk _ _
  congr 1
  show b.data.set c.1 ((b.data.getD c.1 []).set c.2 (cellAt b.data c.1 c.2))
      = b.data
  unfold cellAt
  rw [list_set_getD_id, list_set_getD_id]

theorem forceSet_data_length (b : Board) (c : Coord) (v : Cell) :
    (b.forceSet c v).data.length = b.data.length := by
  show (b.data.set c.1 _).length = _
  exact List.length_set ..

theorem forceSet_row_length (b : Board) (c : Coord) (v : Cell) (i : Nat) :
    ((b.forceSet c v).data.getD i []).length = (b.data.getD i []).length := by
  show ((b.data.set c.1 ((b.data.getD c.1 []).set c.2 v)).getD i []).length = _
  by_cases hrow : c.1 = i
  · subst hrow
    by_cases hin : c.1 < b.data.length
    · rw [list_getD_set_self _ _ _ _ hin, List.length_set]
    · rw [list_set_oob _ _ _ (by omega)]
  · rw [list_getD_set_ne _ _ _ hrow]

theorem WF_forceSet (b : Board) (c : Coord) (v : Cell) (hW : WF b) :
    WF (b.forceSet c v) := by
  obtain ⟨h1, h2⟩ := hW
  exact ⟨by rw [forceSet_data_length]; exact h1,
    fun i hi => by rw [forceSet_row_length]; exact h2 i hi⟩

/-! ## The static index and the private copy -/

theorem staticIndex_mem (data : GridData) (c : Coord) :
    c ∈ staticIndex data ↔
      c.1 < data.length ∧ c.2 < (data.getD c.1 []).length ∧
        (cellAt data c.1 c.2).isSome := by
  unfold staticIndex
  simp only [List.mem_flatMap, List.mem_range, List.mem_filterMap]
  constructor
  · rintro ⟨i, hi, j, hj, hif⟩
    by_cases h : (cellAt data i j).isSome
    · rw [if_pos h] at hif
      obtain rfl : (i, j) = c := by simpa using hif
      exact ⟨hi, hj, h⟩
    · rw [if_neg h] at hif
      simp at hif
  · rintro ⟨h1, h2, h3⟩
    exact ⟨c.1, h1, c.2, h2, by rw [if_pos h3]⟩

theorem is_available_iff (b : Board) (c : Coord) :
    b.is_available c = true ↔ c ∉ b.static_digits_index := by
  simp [Board.is_available]

theorem is_available_false_iff (b : Board) (c : Coord) :
    b.is_available c = false ↔ c ∈ b.static_digits_index := by
  simp [Board.is_available]

theorem new_board_eq (b : Board) : b.new_board = mkBoard b.data := by
  show mkBoard (b.data.map fun row => row) = mkBoard b.data
  rw [List.map_id']

theorem mkBoard_data (data : GridData) : (mkBoard data).data = data := rfl

theorem mkBoard_getItem (data : GridData) (c : Coord) :
    (mkBoard data).getItem c = cellAt data c.1 c.2 := rfl

/-! ## Membership in the available digits -/

/-- A digit is visible from a coordinate along its row. -/
def rowVis (b : Board) (c : Coord) (d : Nat) : Prop :=
  ∃ x, x < 9 ∧ x ≠ c.2 ∧ cellAt b.data c.1 x = some d

/-- A digit is visible from a coordinate along its column. -/
def colVis (b : Board) (c : Coord) (d : Nat) : Prop :=
  ∃ y, y < 9 ∧ y ≠ c.1 ∧ cellAt b.data y c.2 = some d

/-- A digit is visible from a coordinate inside its 3 by 3 block. -/
def blkVis (b : Board) (c : Coord) (d : Nat) : Prop :=
  ∃ y x, y < 3 ∧ x < 3 ∧ (c.1 / 3 * 3 + y, c.2 / 3 * 3 + x) ≠ c ∧
    cellAt b.data (c.1 / 3 * 3 + y) (c.2 / 3 * 3 + x) = some d

theorem mem_digits_iff (b : Board) (c : Coord) (d : Nat) :
    d ∈ b.get_digits_available c ↔
      (1 ≤ d ∧ d < 10) ∧ ¬blkVis b c d ∧ ¬colVis b c d ∧ ¬rowVis b c d := by
  unfold rowVis colVis blkVis
  simp only [Board.get_digits_available, List.mem_filter, List.mem_range'_1,
    decide_eq_true_eq, List.mem_flatMap, List.mem_range, List.mem_filterMap]
  constructor
  · rintro ⟨hr, hblk, hcol, hrow⟩
    refine ⟨⟨hr.1, by omega⟩, ?_, ?_, ?_⟩
    · rintro ⟨y, x, hy, hx, hne, hcell⟩
      exact hblk ⟨y, hy, x, hx, by rw [if_pos hne, hcell]⟩
    · rintro ⟨y, hy, hne, hcell⟩
      exact hcol ⟨y, hy, by rw [if_pos hne, hcell]⟩
    · rintro ⟨x, hx, hne, hcell⟩
      exact hrow ⟨x, hx, by rw [if_pos hne, hcell]⟩
  · rintro ⟨⟨h1, h2⟩, hblk, hcol, hrow⟩
    refine ⟨⟨h1, by omega⟩, ?_, ?_, ?_⟩
    · rintro ⟨y, hy, x, hx, hif⟩
      by_cases hne : (c.1 / 3 * 3 + y, c.2 / 3 * 3 + x) ≠ c
      · rw [if_pos hne] at hif
        exact hblk ⟨y, x, hy, hx, hne, by injection hif⟩
      · rw [if_neg hne] at hif
        simp at hif
    · rintro ⟨y, hy, hif⟩
      by_cases hne : y ≠ c.1
      · rw [if_pos hne] at hif
        exact hcol ⟨y, hy, hne, by injection hif⟩
      · rw [if_neg hne] at hif
        simp at hif
    · rintro ⟨x, hx, hif⟩
      by_cases hne : x ≠ c.2
      · rw [if_pos hne] at hif
        exact hrow ⟨x, hx, hne, by injection hif⟩
      · rw [if_neg hne] at hif
        simp at hif

theorem digits_bounds (b : Board) (c : Coord) (d : Nat)
    (h : d ∈ b.get_digits_available c) : 1 ≤ d ∧ d ≤ 9 := by
  have := (mem_digits_iff b c d).1 h
  exact ⟨this.1.1, by omega⟩

theorem vis_of_peer (b : Board) (c c2 : Coord) (d : Nat)
    (hc2 : inRange c2) (hne : c2 ≠ c) (hsu : sameUnit c c2)
    (hd : b.getItem c2 = some d) :
    blkVis b c d ∨ colVis b c d ∨ rowVis b c d := by
  obtain ⟨ci, cj⟩ := c
  obtain ⟨xi, xj⟩ := c2
  obtain ⟨hx1, hx2⟩ := hc2
  rcases hsu with h | h | ⟨hy, hx⟩
  · right; right
    refine ⟨xj, hx2, ?_, by rw [h]; exact hd⟩
    intro hj; exact hne (by simp [← h, hj] at *; omega)
  · right; left
    refine ⟨xi, hx1, ?_, by rw [h]; exact hd⟩
    intro hij; exact hne (by simp at h hij ⊢; omega)
  · left
    simp only at hy hx
    refine ⟨xi - ci / 3 * 3, xj - cj / 3 * 3, by omega, by omega, ?_, ?_⟩
    · have h1 : ci / 3 * 3 + (xi - ci / 3 * 3) = xi := by omega
      have h2 : cj / 3 * 3 + (xj - cj / 3 * 3) = xj := by omega
      rw [h1, h2]; exact hne
    · have h1 : ci / 3 * 3 + (xi - ci / 3 * 3) = xi := by omega
      have h2 : cj / 3 * 3 + (xj - cj / 3 * 3) = xj := by omega
      rw [h1, h2]; exact hd

theorem peer_of_vis (b : Board) (c : Coord) (d : Nat) (hc : inRange c)
    (h : blkVis b c d ∨ colVis b c d ∨ rowVis b c d) :
    ∃ c2, inRange c2 ∧ c2 ≠ c ∧ sameUnit c c2 ∧ b.getItem c2 = some d := by
  obtain ⟨ci, cj⟩ := c
  obtain ⟨h1, h2⟩ := hc
  rcases h with ⟨y, x, hy, hx, hne, hcell⟩ | ⟨y, hy, hne, hcell⟩ |
    ⟨x, hx, hne, hcell⟩
  · refine ⟨(ci / 3 * 3 + y, cj / 3 * 3 + x), ⟨by omega, by omega⟩, hne,
      Or.inr (Or.inr ⟨by simp; omega, by simp; omega⟩), hcell⟩
  · exact ⟨(y, cj), ⟨hy, h2⟩, by simp [Prod.ext_iff]; omega,
      Or.inr (Or.inl rfl), hcell⟩
  · exact ⟨(ci, x), ⟨h1, hx⟩, by simp [Prod.ext_iff]; omega,
      Or.inl rfl, hcell⟩

/-! ## The digit loop of recursion_solve -/

/-- The while loop of recursion_solve, abstracted over the recursive call
F made at the next coordinate.  With F instantiated to the recursion at
one fuel less, this is definitionally the fold inside recursion_solve. -/
def digitFold (F : Board → Option (Board × Bool)) (c : Coord)
    (acc : Option (Board × Bool)) (ds : List Nat) : Option (Board × Bool) :=
  ds.foldl
    (fun acc d =>
      match acc with
      | none => none
      | some (b2, true) => some (b2, true)
      | some (b2, false) => F (b2.forceSet c (some d)))
    acc

theorem digitFold_nil (F : Board → Option (Board × Bool)) (c : Coord)
    (acc : Option (Board × Bool)) : digitFold F c acc [] = acc := rfl

theorem digitFold_none (F : Board → Option (Board × Bool)) (c : Coord)
    (ds : List Nat) : digitFold F c none ds = none := by
  induction ds with
  | nil => rfl
  | cons d ds ih => exact ih

theorem digitFold_true (F : Board → Option (Board × Bool)) (c : Coord)
    (b : Board) (ds : List Nat) :
    digitFold F c (some (b, true)) ds = some (b, true) := by
  induction ds with
  | nil => rfl
  | cons d ds ih => exact ih

theorem digitFold_cons (F : Board → Option (Board × Bool)) (c : Coord)
    (b : Board) (d : Nat) (ds : List Nat) :
    digitFold F c (some (b, false)) (d :: ds)
      = digitFold F c (F (b.forceSet c (some d))) ds := rfl

/-! ## Unfolding recursion_solve -/

theorem recursion_solve_sentinel (fuel : Nat) (b : Board) :
    recursion_solve fuel b (9, 0) = some (b, true) := by
  cases fuel <;> rw [recursion_solve] <;> rfl

theorem recursion_solve_zero (b : Board) (c : Coord) (h : c ≠ (9, 0)) :
    recursion_solve 0 b c = none := by
  rw [recursion_solve, if_neg h]

theorem recursion_solve_skip (n : Nat) (b : Board) (c : Coord)
    (h : c ≠ (9, 0)) (ha : b.is_available c = false) :
    recursion_solve (n + 1) b c = recursion_solve n b (next_coord c) := by
  rw [recursion_solve, if_neg h]
  simp only [ha]
  rfl

theorem recursion_solve_avail (n : Nat) (b : Board) (c : Coord)
    (h : c ≠ (9, 0)) (ha : b.is_available c = true) :
    recursion_solve (n + 1) b c =
      match digitFold (fun bb => recursion_solve n bb (next_coord c)) c
          (some (b, false)) (b.get_digits_available c) with
      | none => none
      | some (b2, true) => some (b2, true)
      | some (b2, false) => some (b2.forceSet c none, false) := by
  rw [recursion_solve, if_neg h]
  simp only [ha]
  rfl

/-! ## Coordinate arithmetic -/

theorem next_coord_facts (c : Coord) (h : c.2 < 9) :
    cidx (next_coord c) = cidx c + 1 ∧ (next_coord c).2 < 9 := by
  obtain ⟨ci, cj⟩ := c
  simp only [next_coord, cidx] at *
  by_cases h8 : cj = 8
  · subst h8; simp; omega
  · rw [if_neg h8]
    have hm : (cj + 1) % 9 = cj + 1 := Nat.mod_eq_of_lt (by omega)
    constructor
    · simp only [hm]; omega
    · simp only [hm]; omega

theorem sentinel_of_cidx (c : Coord) (h2 : c.2 < 9) (h81 : cidx c = 81) :
    c = (9, 0) := by
  obtain ⟨ci, cj⟩ := c
  simp only [cidx] at h81
  have : ci = 9 ∧ cj = 0 := by omega
  simp [this.1, this.2]

theorem inRange_of_cidx (c : Coord) (h2 : c.2 < 9) (hs : c ≠ (9, 0))
    (hle : cidx c ≤ 81) : inRange c := by
  obtain ⟨ci, cj⟩ := c
  simp only [cidx] at hle
  refine ⟨?_, h2⟩
  by_contra h9
  have : ci = 9 ∧ cj = 0 := by omega
  exact hs (by simp [this.1, this.2])

/-! ## Shape preservation of the recursion -/

/-- Two boards with the same static index and the same grid dimensions. -/
def shEq (b1 b2 : Board) : Prop :=
  b1.static_digits_index = b2.static_digits_index ∧
  b1.data.length = b2.data.length ∧
  ∀ i, (b1.data.getD i []).length = (b2.data.getD i []).length

theorem shEq_refl (b : Board) : shEq b b := ⟨rfl, rfl, fun _ => rfl⟩

theorem shEq_trans {a b c : Board} (h1 : shEq a b) (h2 : shEq b c) :
    shEq a c :=
  ⟨h1.1.trans h2.1, h1.2.1.trans h2.2.1, fun i => (h1.2.2 i).trans (h2.2.2 i)⟩

theorem shEq_forceSet (b : Board) (c : Coord) (v : Cell) :
    shEq (b.forceSet c v) b :=
  ⟨rfl, forceSet_data_length b c v, forceSet_row_length b c v⟩

theorem WF_of_shEq {b1 b2 : Board} (h : shEq b1 b2) (hW : WF b2) : WF b1 :=
  ⟨h.2.1.trans hW.1, fun i hi => (h.2.2 i).trans (hW.2 i hi)⟩

theorem is_available_of_shEq {b1 b2 : Board} (h : shEq b1 b2) (c : Coord) :
    b1.is_available c = b2.is_available c := by
  unfold Board.is_available
  rw [h.1]

theorem digitFold_shEq (F : Board → Option (Board × Bool)) (c : Coord)
    (hF : ∀ bb r, F bb = some r → shEq r.1 bb) :
    ∀ ds b0 r, digitFold F c (some (b0, false)) ds = some r →
      shEq r.1 b0 := by
  intro ds
  induction ds with
  | nil =>
    intro b0 r h
    rw [digitFold_nil] at h
    obtain rfl : (b0, false) = r := by injection h
    exact shEq_refl b0
  | cons d ds ih =>
    intro b0 r h
    rw [digitFold_cons] at h
    rcases hstep : F (b0.forceSet c (some d)) with _ | ⟨b1, res⟩
    · rw [hstep, digitFold_none] at h; exact absurd h (by simp)
    · have hsh1 : shEq b1 b0 :=
        shEq_trans (hF _ _ hstep) (shEq_forceSet b0 c (some d))
      rw [hstep] at h
      cases res with
      | true =>
        rw [digitFold_true] at h
        obtain rfl : (b1, true) = r := by injection h
        exact hsh1
      | false => exact shEq_trans (ih b1 r h) hsh1

theorem rec_shEq :
    ∀ fuel b c r, recursion_solve fuel b c = some r → shEq r.1 b := by
  intro fuel
  induction fuel with
  | zero =>
    intro b c r h
    by_cases hc : c = (9, 0)
    · subst hc
      rw [recursion_solve_sentinel] at h
      obtain rfl : (b, true) = r := by injection h
      exact shEq_refl b
    · rw [recursion_solve_zero b c hc] at h; exact absurd h (by simp)
  | succ n ih =>
    intro b c r h
    by_cases hc : c = (9, 0)
    · subst hc
      rw [recursion_solve_sentinel] at h
      obtain rfl : (b, true) = r := by injection h
      exact shEq_refl b
    · cases ha : b.is_available c with
      | false =>
        rw [recursion_solve_skip n b c hc ha] at h
        exact ih b (next_coord c) r h
      | true =>
        rw [recursion_solve_avail n b c hc ha] at h
        rcases hfold : digitFold (fun bb => recursion_solve n bb (next_coord c))
            c (some (b, false)) (b.get_digits_available c) with _ | ⟨b2, res⟩
        · rw [hfold] at h; exact absurd h (by simp)
        · have hsh2 : shEq b2 b :=
            digitFold_shEq _ c (fun bb r hr => ih bb (next_coord c) r hr)
              _ b (b2, res) hfold
          rw [hfold] at h
          cases res with
          | true =>
            obtain rfl : (b2, true) = r := by injection h
            exact hsh2
          | false =>
            obtain rfl : (b2.forceSet c none, false) = r := by injection h
            exact shEq_trans (shEq_forceSet b2 c none) hsh2

/-! ## The recursion never touches fixed cells or cells before the cursor -/

theorem digitFold_frame (F : Board → Option (Board × Bool)) (c : Coord)
    (hF : ∀ bb r, F bb = some r → ∀ c2,
      (bb.is_available c2 = false ∨ cidx c2 < cidx (next_coord c)) →
        r.1.getItem c2 = bb.getItem c2)
    (hFsh : ∀ bb r, F bb = some r → shEq r.1 bb) :
    ∀ ds b0 r, digitFold F c (some (b0, false)) ds = some r →
      ∀ c2, c2 ≠ c →
        (b0.is_available c2 = false ∨ cidx c2 < cidx (next_coord c)) →
          r.1.getItem c2 = b0.getItem c2 := by
  intro ds
  induction ds with
  | nil =>
    intro b0 r h c2 hne hcond
    rw [digitFold_nil] at h
    obtain rfl : (b0, false) = r := by injection h
    rfl
  | cons d ds ih =>
    intro b0 r h c2 hne hcond
    rw [digitFold_cons] at h
    rcases hstep : F (b0.forceSet c (some d)) with _ | ⟨b1, res⟩
    · rw [hstep, digitFold_none] at h; exact absurd h (by simp)
    · have hpres : b1.getItem c2 = b0.getItem c2 := by
        have h1 := hF _ (b1, res) hstep c2
          (by rwa [forceSet_is_available])
        rw [h1, getItem_forceSet_ne _ _ _ _ hne]
      have hav : b1.is_available c2 = b0.is_available c2 := by
        rw [is_available_of_shEq (hFsh _ _ hstep) c2, forceSet_is_available]
      rw [hstep] at h
      cases res with
      | true =>
        rw [digitFold_true] at h
        obtain rfl : (b1, true) = r := by injection h
        exact hpres
      | false =>
        have := ih b1 r h c2 hne (by rwa [hav])
        rw [this, hpres]

theorem rec_frame :
    ∀ fuel b c r, c.2 < 9 → recursion_solve fuel b c = some r →
      ∀ c2, (b.is_available c2 = false ∨ cidx c2 < cidx c) →
        r.1.getItem c2 = b.getItem c2 := by
  intro fuel
  induction fuel with
  | zero =>
    intro b c r hc9 h c2 hcond
    by_cases hc : c = (9, 0)
    · subst hc
      rw [recursion_solve_sentinel] at h
      obtain rfl : (b, true) = r := by injection h
      rfl
    · rw [recursion_solve_zero b c hc] at h; exact absurd h (by simp)
  | succ n ih =>
    intro b c r hc9 h c2 hcond
    by_cases hc : c = (9, 0)
    · subst hc
      rw [recursion_solve_sentinel] at h
      obtain rfl : (b, true) = r := by injection h
      rfl
    · obtain ⟨hstep, hlt9⟩ := next_coord_facts c hc9
      cases ha : b.is_available c with
      | false =>
        rw [recursion_solve_skip n b c hc ha] at h
        exact ih b (next_coord c) r hlt9 h c2
          (by rcases hcond with h1 | h1
              · exact Or.inl h1
              · exact Or.inr (by omega))
      | true =>
        rw [recursion_solve_avail n b c hc ha] at h
        have hne : c2 ≠ c := by
          rcases hcond with h1 | h1
          · intro he; rw [he, ha] at h1; simp at h1
          · intro he; rw [he] at h1; omega
        rcases hfold : digitFold (fun bb => recursion_solve n bb (next_coord c))
            c (some (b, false)) (b.get_digits_available c) with _ | ⟨b2, res⟩
        · rw [hfold] at h; exact absurd h (by simp)
        · have hloop := digitFold_frame
            (fun bb => recursion_solve n bb (next_coord c)) c
            (fun bb r hr c3 hcond3 => ih bb (next_coord c) r hlt9 hr c3 hcond3)
            (fun bb r hr => rec_shEq n bb (next_coord c) r hr)
            _ b (b2, res) hfold c2 hne
            (by rcases hcond with h1 | h1
                · exact Or.inl h1
                · exact Or.inr (by omega))
          rw [hfold] at h
          cases res with
          | true =>
            obtain rfl : (b2, true) = r := by injection h
            exact hloop
          | false =>
            obtain rfl : (b2.forceSet c none, false) = r := by injection h
            show (b2.forceSet c none).getItem c2 = b.getItem c2
            rw [getItem_forceSet_ne _ _ _ _ hne]
            exact hloop

/-! ## Totality: fuel 81 suffices -/

theorem digitFold_total (F : Board → Option (Board × Bool)) (c : Coord)
    (hF : ∀ bb, (F bb).isSome) :
    ∀ ds b0, (digitFold F c (some (b0, false)) ds).isSome := by
  intro ds
  induction ds with
  | nil => intro b0; rw [digitFold_nil]; rfl
  | cons d ds ih =>
    intro b0
    rw [digitFold_cons]
    rcases hstep : F (b0.forceSet c (some d)) with _ | ⟨b1, res⟩
    · have := hF (b0.forceSet c (some d)); rw [hstep] at this; simp at this
    · cases res with
      | true => rw [digitFold_true]; rfl
      | false => exact ih b1

theorem rec_total :
    ∀ fuel b c, c.2 < 9 → cidx c ≤ 81 → 81 - cidx c ≤ fuel →
      (recursion_solve fuel b c).isSome := by
  intro fuel
  induction fuel with
  | zero =>
    intro b c hc9 hle hf
    have : c = (9, 0) := sentinel_of_cidx c hc9 (by omega)
    subst this
    rw [recursion_solve_sentinel]; rfl
  | succ n ih =>
    intro b c hc9 hle hf
    by_cases hc : c = (9, 0)
    · subst hc; rw [recursion_solve_sentinel]; rfl
    · have hlt : cidx c < 81 := by
        rcases Nat.lt_or_ge (cidx c) 81 with h | h
        · exact h
        · exact absurd (sentinel_of_cidx c hc9 (by omega)) hc
      obtain ⟨hstep, hlt9⟩ := next_coord_facts c hc9
      cases ha : b.is_available c with
      | false =>
        rw [recursion_solve_skip n b c hc ha]
        exact ih b (next_coord c) hlt9 (by omega) (by omega)
      | true =>
        rw [recursion_solve_avail n b c hc ha]
        have hloop := digitFold_total
          (fun bb => recursion_solve n bb (next_coord c)) c
          (fun bb => ih bb (next_coord c) hlt9 (by omega) (by omega))
          (b.get_digits_available c) b
        rcases hfold : digitFold (fun bb => recursion_solve n bb (next_coord c))
            c (some (b, false)) (b.get_digits_available c) with _ | ⟨b2, res⟩
        · rw [hfold] at hloop; simp at hloop
        · cases res <;> simp [hfold]

/-! ## A failed search restores the board -/

theorem digitFold_reset (F : Board → Option (Board × Bool)) (c : Coord)
    (hF : ∀ bb b3,
      (∀ c2, inRange c2 → bb.is_available c2 = true →
        cidx (next_coord c) ≤ cidx c2 → bb.getItem c2 = none) →
      F bb = some (b3, false) → b3 = bb)
    (hstep9 : cidx c < cidx (next_coord c)) :
    ∀ ds b0,
      (∀ c2, inRange c2 → b0.is_available c2 = true →
        cidx c < cidx c2 → b0.getItem c2 = none) →
      ∀ b2, digitFold F c (some (b0, false)) ds = some (b2, false) →
        b2.forceSet c none = b0.forceSet c none := by
  intro ds
  induction ds with
  | nil =>
    intro b0 hinv b2 h
    rw [digitFold_nil] at h
    have hpair : (b0, false) = (b2, false) := by injection h
    have : b0 = b2 := by injection hpair
    rw [this]
  | cons d ds ih =>
    intro b0 hinv b2 h
    rw [digitFold_cons] at h
    rcases hstep : F (b0.forceSet c (some d)) with _ | ⟨b1, res⟩
    · rw [hstep, digitFold_none] at h; exact absurd h (by simp)
    · rw [hstep] at h
      cases res with
      | true =>
        rw [digitFold_true] at h
        have hpair : (b1, true) = (b2, false) := by injection h
        exact absurd (by injection hpair : true = false) (by simp)
      | false =>
        have hbb : ∀ c2, inRange c2 →
            (b0.forceSet c (some d)).is_available c2 = true →
            cidx (next_coord c) ≤ cidx c2 →
            (b0.forceSet c (some d)).getItem c2 = none := by
          intro c2 hr hav hge
          have hne : c2 ≠ c := by intro he; rw [he] at hge; omega
          rw [getItem_forceSet_ne _ _ _ _ hne]
          rw [forceSet_is_available] at hav
          exact hinv c2 hr hav (by omega)
        have hb1 : b1 = b0.forceSet c (some d) := hF _ _ hbb hstep
        subst hb1
        have hres := ih (b0.forceSet c (some d))
          (by
            intro c2 hr hav hgt
            have hne : c2 ≠ c := by intro he; rw [he] at hgt; omega
            rw [getItem_forceSet_ne _ _ _ _ hne]
            rw [forceSet_is_available] at hav
            exact hinv c2 hr hav hgt)
          b2 h
        rw [hres, forceSet_forceSet]

theorem rec_reset :
    ∀ fuel b c b2, c.2 < 9 → cidx c ≤ 81 →
      (∀ c2, inRange c2 → b.is_available c2 = true →
        cidx c ≤ cidx c2 → b.getItem c2 = none) →
      recursion_solve fuel b c = some (b2, false) → b2 = b := by
  intro fuel
  induction fuel with
  | zero =>
    intro b c b2 hc9 hle hinv h
    by_cases hc : c = (9, 0)
    · subst hc
      rw [recursion_solve_sentinel] at h
      have hpair : (b, true) = (b2, false) := by injection h
      exact absurd (by injection hpair : true = false) (by simp)
    · rw [recursion_solve_zero b c hc] at h; exact absurd h (by simp)
  | succ n ih =>
    intro b c b2 hc9 hle hinv h
    by_cases hc : c = (9, 0)
    · subst hc
      rw [recursion_solve_sentinel] at h
      have hpair : (b, true) = (b2, false) := by injection h
      exact absurd (by injection hpair : true = false) (by simp)
    · have hlt : cidx c < 81 := by
        rcases Nat.lt_or_ge (cidx c) 81 with h1 | h1
        · exact h1
        · exact absurd (sentinel_of_cidx c hc9 (by omega)) hc
      obtain ⟨hnext, hlt9⟩ := next_coord_facts c hc9
      cases ha : b.is_available c with
      | false =>
        rw [recursion_solve_skip n b c hc ha] at h
        exact ih b (next_coord c) b2 hlt9 (by omega)
          (fun c2 hr hav hge => hinv c2 hr hav (by omega)) h
      | true =>
        rw [recursion_solve_avail n b c hc ha] at h
        rcases hfold : digitFold (fun bb => recursion_solve n bb (next_coord c))
            c (some (b, false)) (b.get_digits_available c) with _ | ⟨b3, res⟩
        · rw [hfold] at h; exact absurd h (by simp)
        · rw [hfold] at h
          cases res with
          | true =>
            have hpair : (b3, true) = (b2, false) := by injection h
            exact absurd (by injection hpair : true = false) (by simp)
          | false =>
            have hloop := digitFold_reset
              (fun bb => recursion_solve n bb (next_coord c)) c
              (fun bb b4 hbbinv hr =>
                ih bb (next_coord c) b4 hlt9 (by omega) hbbinv hr)
              (by omega)
              (b.get_digits_available c) b
              (fun c2 hr hav hgt => hinv c2 hr hav (by omega))
              b3 hfold
            have hpair : (b3.forceSet c none, false) = (b2, false) := by
              injection h
            have hb : b3.forceSet c none = b2 := by injection hpair
            have hcr : inRange c := inRange_of_cidx c hc9 hc hle
            have hcc : b.getItem c = none := hinv c hcr ha (by omega)
            rw [← hb, hloop, ← hcc, forceSet_self_id]

/-! ## A board with no available coordinate is walked through unchanged -/

theorem rec_allstatic :
    ∀ fuel b c, c.2 < 9 → cidx c ≤ 81 → 81 - cidx c ≤ fuel →
      (∀ c2, inRange c2 → b.is_available c2 = false) →
      recursion_solve fuel b c = some (b, true) := by
  intro fuel
  induction fuel with
  | zero =>
    intro b c hc9 hle hf hall
    have : c = (9, 0) := sentinel_of_cidx c hc9 (by omega)
    subst this
    rw [recursion_solve_sentinel]
  | succ n ih =>
    intro b c hc9 hle hf hall
    by_cases hc : c = (9, 0)
    · subst hc; rw [recursion_solve_sentinel]
    · have hlt : cidx c < 81 := by
        rcases Nat.lt_or_ge (cidx c) 81 with h1 | h1
        · exact h1
        · exact absurd (sentinel_of_cidx c hc9 (by omega)) hc
      obtain ⟨hstep, hlt9⟩ := next_coord_facts c hc9
      have hcr : inRange c := inRange_of_cidx c hc9 hc hle
      rw [recursion_solve_skip n b c hc (hall c hcr)]
      exact ih b (next_coord c) hlt9 (by omega) (by omega) hall

/-! ## A successful search fills every available cell from the cursor on -/

theorem cidx_inj {c c2 : Coord} (h : c.2 < 9) (h2 : c2.2 < 9)
    (he : cidx c = cidx c2) : c = c2 := by
  obtain ⟨a, b⟩ := c
  obtain ⟨x, y⟩ := c2
  simp only [cidx] at he h h2
  have : a = x ∧ b = y := by omega
  rw [this.1, this.2]

theorem digitFold_fills (F : Board → Option (Board × Bool)) (c : Coord)
    (hc : inRange c)
    (hFfill : ∀ bb b3, WF bb → F bb = some (b3, true) → ∀ c2, inRange c2 →
      cidx (next_coord c) ≤ cidx c2 → bb.is_available c2 = true →
        ∃ d, 1 ≤ d ∧ d ≤ 9 ∧ b3.getItem c2 = some d)
    (hFframe : ∀ bb r, F bb = some r → ∀ c2,
      (bb.is_available c2 = false ∨ cidx c2 < cidx (next_coord c)) →
        r.1.getItem c2 = bb.getItem c2)
    (hFsh : ∀ bb r, F bb = some r → shEq r.1 bb)
    (hstepeq : cidx (next_coord c) = cidx c + 1) :
    ∀ ds b0, WF b0 → (∀ d, d ∈ ds → 1 ≤ d ∧ d ≤ 9) →
      ∀ b2, digitFold F c (some (b0, false)) ds = some (b2, true) →
        ∀ c2, inRange c2 → cidx c ≤ cidx c2 → b0.is_available c2 = true →
          ∃ d, 1 ≤ d ∧ d ≤ 9 ∧ b2.getItem c2 = some d := by
  intro ds
  induction ds with
  | nil =>
    intro b0 hW hds b2 h
    rw [digitFold_nil] at h
    have hpair : (b0, false) = (b2, true) := by injection h
    exact absurd (by injection hpair : false = true) (by simp)
  | cons d ds ih =>
    intro b0 hW hds b2 h c2 hr2 hge hav
    rw [digitFold_cons] at h
    rcases hstep : F (b0.forceSet c (some d)) with _ | ⟨b3, res⟩
    · rw [hstep, digitFold_none] at h; exact absurd h (by simp)
    · have hWbb : WF (b0.forceSet c (some d)) := WF_forceSet b0 c (some d) hW
      rw [hstep] at h
      cases res with
      | true =>
        rw [digitFold_true] at h
        have hpair : (b3, true) = (b2, true) := by injection h
        obtain rfl : b3 = b2 := by injection hpair
        by_cases hcc : c2 = c
        · subst hcc
          refine ⟨d, (hds d (by simp)).1, (hds d (by simp)).2, ?_⟩
          have hfr := hFframe _ _ hstep c2 (Or.inr (by omega))
          rw [hfr, getItem_forceSet_self b0 c2 (some d) hW hc]
        · have hgt : cidx (next_coord c) ≤ cidx c2 := by
            have : cidx c ≠ cidx c2 := fun he => hcc (cidx_inj hr2.2 hc.2 he.symm)
            omega
          exact hFfill _ _ hWbb hstep c2 hr2 hgt
            (by rwa [forceSet_is_available])
      | false =>
        have hsh3 : shEq b3 b0 :=
          shEq_trans (hFsh _ _ hstep) (shEq_forceSet b0 c (some d))
        have := ih b3 (WF_of_shEq hsh3 hW) (fun d2 hd2 => hds d2 (by simp [hd2]))
          b2 h c2 hr2 hge (by rw [is_available_of_shEq hsh3]; exact hav)
        exact this

theorem rec_fills :
    ∀ fuel b c b2, c.2 < 9 → cidx c ≤ 81 → WF b →
      recursion_solve fuel b c = some (b2, true) →
      ∀ c2, inRange c2 → cidx c ≤ cidx c2 → b.is_available c2 = true →
        ∃ d, 1 ≤ d ∧ d ≤ 9 ∧ b2.getItem c2 = some d := by
  intro fuel
  induction fuel with
  | zero =>
    intro b c b2 hc9 hle hW h c2 hr2 hge hav
    by_cases hc : c = (9, 0)
    · subst hc
      obtain ⟨h1, h2⟩ := hr2
      simp only [cidx] at hge
      omega
    · rw [recursion_solve_zero b c hc] at h; exact absurd h (by simp)
  | succ n ih =>
    intro b c b2 hc9 hle hW h c2 hr2 hge hav
    by_cases hc : c = (9, 0)
    · subst hc
      obtain ⟨h1, h2⟩ := hr2
      simp only [cidx] at hge
      omega
    · have hlt : cidx c < 81 := by
        rcases Nat.lt_or_ge (cidx c) 81 with h1 | h1
        · exact h1
        · exact absurd (sentinel_of_cidx c hc9 (by omega)) hc
      obtain ⟨hnext, hlt9⟩ := next_coord_facts c hc9
      have hcr : inRange c := inRange_of_cidx c hc9 hc hle
      cases ha : b.is_available c with
      | false =>
        rw [recursion_solve_skip n b c hc ha] at h
        have hne : c2 ≠ c := by
          intro he; rw [he, ha] at hav; exact absurd hav (by simp)
        have hgt : cidx (next_coord c) ≤ cidx c2 := by
          have : cidx c ≠ cidx c2 := fun he => hne (cidx_inj hr2.2 hc9 he.symm)
          omega
        exact ih b (next_coord c) b2 hlt9 (by omega) hW h c2 hr2 (by omega) hav
      | true =>
        rw [recursion_solve_avail n b c hc ha] at h
        rcases hfold : digitFold (fun bb => recursion_solve n bb (next_coord c))
            c (some (b, false)) (b.get_digits_available c) with _ | ⟨b3, res⟩
        · rw [hfold] at h; exact absurd h (by simp)
        · rw [hfold] at h
          cases res with
          | false =>
            have hpair : (b3.forceSet c none, false) = (b2, true) := by injection h
            exact absurd (by injection hpair : false = true) (by simp)
          | true =>
            have hpair : (b3, true) = (b2, true) := by injection h
            have hb : b3 = b2 := by injection hpair
            rw [← hb]
            exact digitFold_fills
              (fun bb => recursion_solve n bb (next_coord c)) c hcr
              (fun bb b4 hWbb hr c3 hr3 hge3 hav3 =>
                ih bb (next_coord c) b4 hlt9 (by omega) hWbb hr c3 hr3 hge3 hav3)
              (fun bb r hr c3 hcond3 => rec_frame n bb (next_coord c) r hlt9 hr c3 hcond3)
              (fun bb r hr => rec_shEq n bb (next_coord c) r hr)
              (by omega)
              (b.get_digits_available c) b hW
              (fun d2 hd2 => digits_bounds b c d2 hd2)
              b3 hfold c2 hr2 hge hav

/-! ## The unique-candidate assignment of an is_solved board

When every coordinate has exactly one available digit, the head of each
candidate list defines an assignment of digits to all 81 coordinates.
The following lemmas prove the key combinatorial fact behind the solver
claims: this assignment never repeats a digit inside a row, a column, or
a block, so it is a proper solution extending the filled cells. -/

/-- The unique available digit of a coordinate (meaningful when the
candidate list is a singleton). -/
def ucand (b : Board) (c : Coord) : Nat :=
  (b.get_digits_available c).headD 0

theorem singleton_of_length_one {l : List Nat} (h : l.length = 1) :
    l = [l.headD 0] := by
  cases l with
  | nil => simp at h
  | cons a t =>
    cases t with
    | nil => rfl
    | cons a2 t2 => simp at h

theorem ucand_digits (b : Board) (c : Coord)
    (hlen : (b.get_digits_available c).length = 1) :
    b.get_digits_available c = [ucand b c] :=
  singleton_of_length_one hlen

theorem ucand_mem (b : Board) (c : Coord)
    (hlen : (b.get_digits_available c).length = 1) :
    ucand b c ∈ b.get_digits_available c := by
  rw [ucand_digits b c hlen]; simp

theorem ucand_bounds (b : Board) (c : Coord)
    (hlen : (b.get_digits_available c).length = 1) :
    1 ≤ ucand b c ∧ ucand b c ≤ 9 :=
  digits_bounds b c _ (ucand_mem b c hlen)

theorem ucand_not_vis (b : Board) (c : Coord)
    (hlen : (b.get_digits_available c).length = 1) :
    ¬blkVis b c (ucand b c) ∧ ¬colVis b c (ucand b c) ∧
      ¬rowVis b c (ucand b c) :=
  ((mem_digits_iff b c _).1 (ucand_mem b c hlen)).2

theorem ucand_vis (b : Board) (c : Coord) (w : Nat)
    (hlen : (b.get_digits_available c).length = 1)
    (hw1 : 1 ≤ w) (hw9 : w ≤ 9) (hne : w ≠ ucand b c) :
    blkVis b c w ∨ colVis b c w ∨ rowVis b c w := by
  have hnm : w ∉ b.get_digits_available c := by
    rw [ucand_digits b c hlen]; simpa using hne
  by_contra hno
  push_neg at hno
  exact hnm ((mem_digits_iff b c w).2 ⟨⟨hw1, by omega⟩, hno.1, hno.2.1, hno.2.2⟩)

/-- Two distinct coordinates of a common unit never both hold the same
digit on a board whose candidate lists are all singletons containing the
value of every filled cell. -/
theorem no_dup_filled (b : Board)
    (hlen : ∀ c, inRange c → (b.get_digits_available c).length = 1)
    (hfill : ∀ c v, inRange c → b.getItem c = some v → ucand b c = v)
    (d : Nat) :
    ∀ z1 z2, inRange z1 → inRange z2 → z1 ≠ z2 → sameUnit z1 z2 →
      b.getItem z1 = some d → b.getItem z2 = some d → False := by
  intro z1 z2 h1 h2 hne hsu hv1 hv2
  have hu1 : ucand b z1 = d := hfill z1 d h1 hv1
  have hvis := vis_of_peer b z1 z2 d h2 (fun he => hne he.symm) hsu hv2
  have hnv := ucand_not_vis b z1 (hlen z1 h1)
  rw [hu1] at hnv
  rcases hvis with h | h | h
  · exact hnv.1 h
  · exact hnv.2.1 h
  · exact hnv.2.2 h

/-- If a row carries no occurrence of a digit, some block of its band
also carries none (else the three blocks would put three occurrences
into the two other rows of the band). -/
theorem blockrow_gap (b : Board)
    (hlen : ∀ c, inRange c → (b.get_digits_available c).length = 1)
    (hfill : ∀ c v, inRange c → b.getItem c = some v → ucand b c = v)
    (r d : Nat) (hr : r < 9)
    (hrowfree : ∀ x, x < 9 → b.getItem (r, x) ≠ some d) :
    ∃ σ, σ < 3 ∧ ∀ y x, y < 3 → x < 3 →
      b.getItem (r / 3 * 3 + y, σ * 3 + x) ≠ some d := by
  by_contra hno
  push_neg at hno
  obtain ⟨y0, x0, hy0, hx0, hc0⟩ := hno 0 (by omega)
  obtain ⟨y1, x1, hy1, hx1, hc1⟩ := hno 1 (by omega)
  obtain ⟨y2, x2, hy2, hx2, hc2⟩ := hno 2 (by omega)
  have hrfl : ∀ y x, y < 3 → x < 3 →
      b.getItem (r / 3 * 3 + y, x) = some d → r / 3 * 3 + y ≠ r := by
    intro y x hy hx hc he
    exact hrowfree x (by omega) (by rw [← he]; exact hc)
  have hne0 : r / 3 * 3 + y0 ≠ r := by
    intro he; exact hrowfree (0 * 3 + x0) (by omega) (by rw [← he]; exact hc0)
  have hne1 : r / 3 * 3 + y1 ≠ r := by
    intro he; exact hrowfree (1 * 3 + x1) (by omega) (by rw [← he]; exact hc1)
  have hne2 : r / 3 * 3 + y2 ≠ r := by
    intro he; exact hrowfree (2 * 3 + x2) (by omega) (by rw [← he]; exact hc2)
  have hd01 : r / 3 * 3 + y0 ≠ r / 3 * 3 + y1 := by
    intro he
    exact no_dup_filled b hlen hfill d
      (r / 3 * 3 + y0, 0 * 3 + x0) (r / 3 * 3 + y1, 1 * 3 + x1)
      ⟨by omega, by omega⟩ ⟨by omega, by omega⟩
      (by intro hpq; rw [Prod.ext_iff] at hpq; omega) (Or.inl (by simpa using he))
      hc0 hc1
  have hd02 : r / 3 * 3 + y0 ≠ r / 3 * 3 + y2 := by
    intro he
    exact no_dup_filled b hlen hfill d
      (r / 3 * 3 + y0, 0 * 3 + x0) (r / 3 * 3 + y2, 2 * 3 + x2)
      ⟨by omega, by omega⟩ ⟨by omega, by omega⟩
      (by intro hpq; rw [Prod.ext_iff] at hpq; omega) (Or.inl (by simpa using he))
      hc0 hc2
  have hd12 : r / 3 * 3 + y1 ≠ r / 3 * 3 + y2 := by
    intro he
    exact no_dup_filled b hlen hfill d
      (r / 3 * 3 + y1, 1 * 3 + x1) (r / 3 * 3 + y2, 2 * 3 + x2)
      ⟨by omega, by omega⟩ ⟨by omega, by omega⟩
      (by intro hpq; rw [Prod.ext_iff] at hpq; omega) (Or.inl (by simpa using he))
      hc1 hc2
  omega

/-- If a block carries no occurrence of a digit, some column of its
stack also carries none. -/
theorem stack_gap (b : Board)
    (hlen : ∀ c, inRange c → (b.get_digits_available c).length = 1)
    (hfill : ∀ c v, inRange c → b.getItem c = some v → ucand b c = v)
    (β σ d : Nat) (hβ : β < 3) (hσ : σ < 3)
    (hblkfree : ∀ y x, y < 3 → x < 3 →
      b.getItem (β * 3 + y, σ * 3 + x) ≠ some d) :
    ∃ x2, x2 < 3 ∧ ∀ y, y < 9 → b.getItem (y, σ * 3 + x2) ≠ some d := by
  by_contra hno
  push_neg at hno
  obtain ⟨y0, hy0, hc0⟩ := hno 0 (by omega)
  obtain ⟨y1, hy1, hc1⟩ := hno 1 (by omega)
  obtain ⟨y2, hy2, hc2⟩ := hno 2 (by omega)
  have hd01 : y0 / 3 ≠ y1 / 3 := by
    intro he
    exact no_dup_filled b hlen hfill d
      (y0, σ * 3 + 0) (y1, σ * 3 + 1)
      ⟨by omega, by omega⟩ ⟨by omega, by omega⟩
      (by intro hpq; rw [Prod.ext_iff] at hpq; omega)
      (Or.inr (Or.inr ⟨he, by simp; omega⟩)) hc0 hc1
  have hd02 : y0 / 3 ≠ y2 / 3 := by
    intro he
    exact no_dup_filled b hlen hfill d
      (y0, σ * 3 + 0) (y2, σ * 3 + 2)
      ⟨by omega, by omega⟩ ⟨by omega, by omega⟩
      (by intro hpq; rw [Prod.ext_iff] at hpq; omega)
      (Or.inr (Or.inr ⟨he, by simp; omega⟩)) hc0 hc2
  have hd12 : y1 / 3 ≠ y2 / 3 := by
    intro he
    exact no_dup_filled b hlen hfill d
      (y1, σ * 3 + 1) (y2, σ * 3 + 2)
      ⟨by omega, by omega⟩ ⟨by omega, by omega⟩
      (by intro hpq; rw [Prod.ext_iff] at hpq; omega)
      (Or.inr (Or.inr ⟨he, by simp; omega⟩)) hc1 hc2
  have hcover : y0 / 3 = β ∨ y1 / 3 = β ∨ y2 / 3 = β := by omega
  rcases hcover with he | he | he
  · exact hblkfree (y0 - β * 3) 0 (by omega) (by omega)
      (by have : β * 3 + (y0 - β * 3) = y0 := by omega
          rw [this]; exact hc0)
  · exact hblkfree (y1 - β * 3) 1 (by omega) (by omega)
      (by have : β * 3 + (y1 - β * 3) = y1 := by omega
          rw [this]; exact hc1)
  · exact hblkfree (y2 - β * 3) 2 (by omega) (by omega)
      (by have : β * 3 + (y2 - β * 3) = y2 := by omega
          rw [this]; exact hc2)

/-- The unique-candidate assignment never repeats a digit inside a row. -/
theorem no_row_clash (b : Board)
    (hlen : ∀ c, inRange c → (b.get_digits_available c).length = 1)
    (hfill : ∀ c v, inRange c → b.getItem c = some v → ucand b c = v) :
    ∀ r j1 j2, r < 9 → j1 < 9 → j2 < 9 → j1 ≠ j2 →
      ucand b (r, j1) ≠ ucand b (r, j2) := by
  intro r j1 j2 hr hj1 hj2 hjne heq
  have hb : ∀ j, j < 9 → 1 ≤ ucand b (r, j) ∧ ucand b (r, j) ≤ 9 :=
    fun j hj => ucand_bounds b (r, j) (hlen (r, j) ⟨hr, hj⟩)
  set g : Fin 9 → Fin 9 := fun j => ⟨ucand b (r, j.val) - 1,
    by have := hb j.val j.isLt; omega⟩ with hg
  have hninj : ¬Function.Injective g := by
    intro hinj
    have : (⟨j1, hj1⟩ : Fin 9) = ⟨j2, hj2⟩ := hinj (by
      apply Fin.ext
      show ucand b (r, j1) - 1 = ucand b (r, j2) - 1
      omega)
    exact hjne (by simpa using this)
  have hnsurj : ¬Function.Surjective g := by
    intro hsurj
    exact hninj (Finite.injective_iff_surjective.2 hsurj)
  rw [Function.Surjective] at hnsurj
  push_neg at hnsurj
  obtain ⟨w, hw⟩ := hnsurj
  have hnof : ∀ j, j < 9 → ucand b (r, j) ≠ w.val + 1 := by
    intro j hj hwe
    exact hw ⟨j, hj⟩ (by
      apply Fin.ext
      show ucand b (r, j) - 1 = w.val
      omega)
  have hrowfree : ∀ x, x < 9 → b.getItem (r, x) ≠ some (w.val + 1) := by
    intro x hx hc
    exact hnof x hx (hfill (r, x) (w.val + 1) ⟨hr, hx⟩ hc)
  obtain ⟨σ, hσ, hblkgap⟩ :=
    blockrow_gap b hlen hfill r (w.val + 1) hr hrowfree
  obtain ⟨x2, hx2, hcolfree⟩ :=
    stack_gap b hlen hfill (r / 3) σ (w.val + 1) (by omega) hσ
      (by
        intro y x hy hx
        have hrw : r / 3 * 3 + y = r / 3 * 3 + y := rfl
        exact hblkgap y x hy hx)
  have hzr : inRange (r, σ * 3 + x2) := ⟨hr, by omega⟩
  have hzu : ucand b (r, σ * 3 + x2) = w.val + 1 := by
    by_contra hne2
    have hvis := ucand_vis b (r, σ * 3 + x2) (w.val + 1)
      (hlen _ hzr) (by omega) (by have := w.isLt; omega)
      (fun he => hne2 he.symm)
    rcases hvis with h | h | h
    · obtain ⟨y, x, hy, hx, hnec, hcell⟩ := h
      have he2 : ((r, σ * 3 + x2) : Coord).2 / 3 * 3 = σ * 3 := by
        simp; omega
      rw [he2] at hcell
      exact hblkgap y x hy hx hcell
    · obtain ⟨y, hy, hney, hcell⟩ := h
      exact hcolfree y hy hcell
    · obtain ⟨x, hx, hnex, hcell⟩ := h
      exact hrowfree x hx hcell
  exact hnof (σ * 3 + x2) (by omega) hzu

/-- If a column carries no occurrence of a digit, some block of its
stack also carries none. -/
theorem blockcol_gap (b : Board)
    (hlen : ∀ c, inRange c → (b.get_digits_available c).length = 1)
    (hfill : ∀ c v, inRange c → b.getItem c = some v → ucand b c = v)
    (γ d : Nat) (hγ : γ < 9)
    (hcolfree : ∀ y, y < 9 → b.getItem (y, γ) ≠ some d) :
    ∃ β, β < 3 ∧ ∀ y x, y < 3 → x < 3 →
      b.getItem (β * 3 + y, γ / 3 * 3 + x) ≠ some d := by
  by_contra hno
  push_neg at hno
  obtain ⟨y0, x0, hy0, hx0, hc0⟩ := hno 0 (by omega)
  obtain ⟨y1, x1, hy1, hx1, hc1⟩ := hno 1 (by omega)
  obtain ⟨y2, x2, hy2, hx2, hc2⟩ := hno 2 (by omega)
  have hne0 : γ / 3 * 3 + x0 ≠ γ := by
    intro he; exact hcolfree (0 * 3 + y0) (by omega) (by rw [← he]; exact hc0)
  have hne1 : γ / 3 * 3 + x1 ≠ γ := by
    intro he; exact hcolfree (1 * 3 + y1) (by omega) (by rw [← he]; exact hc1)
  have hne2 : γ / 3 * 3 + x2 ≠ γ := by
    intro he; exact hcolfree (2 * 3 + y2) (by omega) (by rw [← he]; exact hc2)
  have hd01 : γ / 3 * 3 + x0 ≠ γ / 3 * 3 + x1 := by
    intro he
    exact no_dup_filled b hlen hfill d
      (0 * 3 + y0, γ / 3 * 3 + x0) (1 * 3 + y1, γ / 3 * 3 + x1)
      ⟨by omega, by omega⟩ ⟨by omega, by omega⟩
      (by intro hpq; rw [Prod.ext_iff] at hpq; omega)
      (Or.inr (Or.inl (by simpa using he))) hc0 hc1
  have hd02 : γ / 3 * 3 + x0 ≠ γ / 3 * 3 + x2 := by
    intro he
    exact no_dup_filled b hlen hfill d
      (0 * 3 + y0, γ / 3 * 3 + x0) (2 * 3 + y2, γ / 3 * 3 + x2)
      ⟨by omega, by omega⟩ ⟨by omega, by omega⟩
      (by intro hpq; rw [Prod.ext_iff] at hpq; omega)
      (Or.inr (Or.inl (by simpa using he))) hc0 hc2
  have hd12 : γ / 3 * 3 + x1 ≠ γ / 3 * 3 + x2 := by
    intro he
    exact no_dup_filled b hlen hfill d
      (1 * 3 + y1, γ / 3 * 3 + x1) (2 * 3 + y2, γ / 3 * 3 + x2)
      ⟨by omega, by omega⟩ ⟨by omega, by omega⟩
      (by intro hpq; rw [Prod.ext_iff] at hpq; omega)
      (Or.inr (Or.inl (by simpa using he))) hc1 hc2
  omega

/-- If a block carries no occurrence of a digit, some row of its band
also carries none. -/
theorem row_gap (b : Board)
    (hlen : ∀ c, inRange c → (b.get_digits_available c).length = 1)
    (hfill : ∀ c v, inRange c → b.getItem c = some v → ucand b c = v)
    (β σ d : Nat) (hβ : β < 3) (hσ : σ < 3)
    (hblkfree : ∀ y x, y < 3 → x < 3 →
      b.getItem (β * 3 + y, σ * 3 + x) ≠ some d) :
    ∃ y2, y2 < 3 ∧ ∀ x, x < 9 → b.getItem (β * 3 + y2, x) ≠ some d := by
  by_contra hno
  push_neg at hno
  obtain ⟨x0, hx0, hc0⟩ := hno 0 (by omega)
  obtain ⟨x1, hx1, hc1⟩ := hno 1 (by omega)
  obtain ⟨x2, hx2, hc2⟩ := hno 2 (by omega)
  have hd01 : x0 / 3 ≠ x1 / 3 := by
    intro he
    exact no_dup_filled b hlen hfill d
      (β * 3 + 0, x0) (β * 3 + 1, x1)
      ⟨by omega, by omega⟩ ⟨by omega, by omega⟩
      (by intro hpq; rw [Prod.ext_iff] at hpq; omega)
      (Or.inr (Or.inr ⟨by simp; omega, he⟩)) hc0 hc1
  have hd02 : x0 / 3 ≠ x2 / 3 := by
    intro he
    exact no_dup_filled b hlen hfill d
      (β * 3 + 0, x0) (β * 3 + 2, x2)
      ⟨by omega, by omega⟩ ⟨by omega, by omega⟩
      (by intro hpq; rw [Prod.ext_iff] at hpq; omega)
      (Or.inr (Or.inr ⟨by simp; omega, he⟩)) hc0 hc2
  have hd12 : x1 / 3 ≠ x2 / 3 := by
    intro he
    exact no_dup_filled b hlen hfill d
      (β * 3 + 1, x1) (β * 3 + 2, x2)
      ⟨by omega, by omega⟩ ⟨by omega, by omega⟩
      (by intro hpq; rw [Prod.ext_iff] at hpq; omega)
      (Or.inr (Or.inr ⟨by simp; omega, he⟩)) hc1 hc2
  have hcover : x0 / 3 = σ ∨ x1 / 3 = σ ∨ x2 / 3 = σ := by omega
  rcases hcover with he | he | he
  · exact hblkfree 0 (x0 - σ * 3) (by omega) (by omega)
      (by have : σ * 3 + (x0 - σ * 3) = x0 := by omega
          rw [this]; exact hc0)
  · exact hblkfree 1 (x1 - σ * 3) (by omega) (by omega)
      (by have : σ * 3 + (x1 - σ * 3) = x1 := by omega
          rw [this]; exact hc1)
  · exact hblkfree 2 (x2 - σ * 3) (by omega) (by omega)
      (by have : σ * 3 + (x2 - σ * 3) = x2 := by omega
          rw [this]; exact hc2)

/-- The unique-candidate assignment never repeats a digit inside a
column. -/
theorem no_col_clash (b : Board)
    (hlen : ∀ c, inRange c → (b.get_digits_available c).length = 1)
    (hfill : ∀ c v, inRange c → b.getItem c = some v → ucand b c = v) :
    ∀ γ i1 i2, γ < 9 → i1 < 9 → i2 < 9 → i1 ≠ i2 →
      ucand b (i1, γ) ≠ ucand b (i2, γ) := by
  intro γ i1 i2 hγ hi1 hi2 hine heq
  have hb : ∀ i, i < 9 → 1 ≤ ucand b (i, γ) ∧ ucand b (i, γ) ≤ 9 :=
    fun i hi => ucand_bounds b (i, γ) (hlen (i, γ) ⟨hi, hγ⟩)
  set g : Fin 9 → Fin 9 := fun i => ⟨ucand b (i.val, γ) - 1,
    by have := hb i.val i.isLt; omega⟩ with hg
  have hninj : ¬Function.Injective g := by
    intro hinj
    have : (⟨i1, hi1⟩ : Fin 9) = ⟨i2, hi2⟩ := hinj (by
      apply Fin.ext
      show ucand b (i1, γ) - 1 = ucand b (i2, γ) - 1
      omega)
    exact hine (by simpa using this)
  have hnsurj : ¬Function.Surjective g := by
    intro hsurj
    exact hninj (Finite.injective_iff_surjective.2 hsurj)
  rw [Function.Surjective] at hnsurj
  push_neg at hnsurj
  obtain ⟨w, hw⟩ := hnsurj
  have hnof : ∀ i, i < 9 → ucand b (i, γ) ≠ w.val + 1 := by
    intro i hi hwe
    exact hw ⟨i, hi⟩ (by
      apply Fin.ext
      show ucand b (i, γ) - 1 = w.val
      omega)
  have hcolfree : ∀ y, y < 9 → b.getItem (y, γ) ≠ some (w.val + 1) := by
    intro y hy hc
    exact hnof y hy (hfill (y, γ) (w.val + 1) ⟨hy, hγ⟩ hc)
  obtain ⟨β, hβ, hblkgap⟩ :=
    blockcol_gap b hlen hfill γ (w.val + 1) hγ hcolfree
  obtain ⟨y2, hy2, hrowfree⟩ :=
    row_gap b hlen hfill β (γ / 3) (w.val + 1) hβ (by omega)
      (by
        intro y x hy hx
        exact hblkgap y x hy hx)
  have hzr : inRange (β * 3 + y2, γ) := ⟨by omega, hγ⟩
  have hzu : ucand b (β * 3 + y2, γ) = w.val + 1 := by
    by_contra hne2
    have hvis := ucand_vis b (β * 3 + y2, γ) (w.val + 1)
      (hlen _ hzr) (by omega) (by have := w.isLt; omega)
      (fun he => hne2 he.symm)
    rcases hvis with h | h | h
    · obtain ⟨y, x, hy, hx, hnec, hcell⟩ := h
      have he1 : ((β * 3 + y2, γ) : Coord).1 / 3 * 3 = β * 3 := by
        simp; omega
      rw [he1] at hcell
      exact hblkgap y x hy hx hcell
    · obtain ⟨y, hy, hney, hcell⟩ := h
      exact hcolfree y hy hcell
    · obtain ⟨x, hx, hnex, hcell⟩ := h
      exact hrowfree x hx hcell
  exact hnof (β * 3 + y2) (by omega) hzu

/-- The unique-candidate assignment never repeats a digit inside a
block. -/
theorem no_blk_clash (b : Board)
    (hlen : ∀ c, inRange c → (b.get_digits_available c).length = 1)
    (hfill : ∀ c v, inRange c → b.getItem c = some v → ucand b c = v) :
    ∀ r1 j1 r2 j2, r1 < 9 → j1 < 9 → r2 < 9 → j2 < 9 →
      r1 / 3 = r2 / 3 → j1 / 3 = j2 / 3 → (r1, j1) ≠ ((r2, j2) : Coord) →
      ucand b (r1, j1) ≠ ucand b (r2, j2) := by
  intro r1 j1 r2 j2 hr1 hj1 hr2 hj2 hband hstack hne heq
  have hb : ∀ y x, y < 3 → x < 3 →
      1 ≤ ucand b (r1 / 3 * 3 + y, j1 / 3 * 3 + x) ∧
        ucand b (r1 / 3 * 3 + y, j1 / 3 * 3 + x) ≤ 9 :=
    fun y x hy hx =>
      ucand_bounds b _ (hlen _ ⟨by omega, by omega⟩)
  set g : Fin 9 → Fin 9 := fun t =>
    ⟨ucand b (r1 / 3 * 3 + t.val / 3, j1 / 3 * 3 + t.val % 3) - 1,
      by have := hb (t.val / 3) (t.val % 3) (by omega) (by omega); omega⟩
    with hg
  have hcoord1 : ((r1 / 3 * 3 + ((r1 % 3) * 3 + j1 % 3) / 3 : Nat),
      (j1 / 3 * 3 + ((r1 % 3) * 3 + j1 % 3) % 3 : Nat)) = ((r1, j1) : Coord) := by
    rw [Prod.ext_iff]
    constructor
    · simp; omega
    · simp; omega
  have hcoord2 : ((r1 / 3 * 3 + ((r2 % 3) * 3 + j2 % 3) / 3 : Nat),
      (j1 / 3 * 3 + ((r2 % 3) * 3 + j2 % 3) % 3 : Nat)) = ((r2, j2) : Coord) := by
    rw [Prod.ext_iff]
    constructor
    · simp; omega
    · simp; omega
  have hninj : ¬Function.Injective g := by
    intro hinj
    have hteq : (⟨(r1 % 3) * 3 + j1 % 3, by omega⟩ : Fin 9)
        = ⟨(r2 % 3) * 3 + j2 % 3, by omega⟩ := hinj (by
      apply Fin.ext
      show ucand b _ - 1 = ucand b _ - 1
      rw [hcoord1, hcoord2]
      omega)
    have : (r1 % 3) * 3 + j1 % 3 = (r2 % 3) * 3 + j2 % 3 := by
      simpa using hteq
    exact hne (by rw [Prod.ext_iff]; constructor <;> simp <;> omega)
  have hnsurj : ¬Function.Surjective g := by
    intro hsurj
    exact hninj (Finite.injective_iff_surjective.2 hsurj)
  rw [Function.Surjective] at hnsurj
  push_neg at hnsurj
  obtain ⟨w, hw⟩ := hnsurj
  have hnof : ∀ y x, y < 3 → x < 3 →
      ucand b (r1 / 3 * 3 + y, j1 / 3 * 3 + x) ≠ w.val + 1 := by
    intro y x hy hx hwe
    refine hw ⟨y * 3 + x, by omega⟩ (Fin.ext ?_)
    show ucand b (r1 / 3 * 3 + (y * 3 + x) / 3,
      j1 / 3 * 3 + (y * 3 + x) % 3) - 1 = w.val
    have hy3 : (y * 3 + x) / 3 = y := by omega
    have hx3 : (y * 3 + x) % 3 = x := by omega
    rw [hy3, hx3, hwe]
    omega
  have hblkfree : ∀ y x, y < 3 → x < 3 →
      b.getItem (r1 / 3 * 3 + y, j1 / 3 * 3 + x) ≠ some (w.val + 1) := by
    intro y x hy hx hc
    exact hnof y x hy hx
      (hfill _ (w.val + 1) ⟨by omega, by omega⟩ hc)
  obtain ⟨y2, hy2, hrowfree⟩ :=
    row_gap b hlen hfill (r1 / 3) (j1 / 3) (w.val + 1) (by omega) (by omega)
      hblkfree
  obtain ⟨x2, hx2, hcolfree⟩ :=
    stack_gap b hlen hfill (r1 / 3) (j1 / 3) (w.val + 1) (by omega) (by omega)
      hblkfree
  have hzr : inRange (r1 / 3 * 3 + y2, j1 / 3 * 3 + x2) :=
    ⟨by omega, by omega⟩
  have hzu : ucand b (r1 / 3 * 3 + y2, j1 / 3 * 3 + x2) = w.val + 1 := by
    by_contra hne2
    have hvis := ucand_vis b (r1 / 3 * 3 + y2, j1 / 3 * 3 + x2) (w.val + 1)
      (hlen _ hzr) (by omega) (by have := w.isLt; omega)
      (fun he => hne2 he.symm)
    rcases hvis with h | h | h
    · obtain ⟨y, x, hy, hx, hnec, hcell⟩ := h
      have he1 : ((r1 / 3 * 3 + y2, j1 / 3 * 3 + x2) : Coord).1 / 3 * 3
          = r1 / 3 * 3 := by simp; omega
      have he2 : ((r1 / 3 * 3 + y2, j1 / 3 * 3 + x2) : Coord).2 / 3 * 3
          = j1 / 3 * 3 := by simp; omega
      rw [he1, he2] at hcell
      exact hblkfree y x hy hx hcell
    · obtain ⟨y, hy, hney, hcell⟩ := h
      exact hcolfree y hy hcell
    · obtain ⟨x, hx, hnex, hcell⟩ := h
      exact hrowfree x hx hcell
  exact hnof y2 x2 hy2 hx2 hzu

/-- On a board whose candidate lists are all singletons containing every
filled value, the unique-candidate assignment is a proper solution: no
two coordinates of a common unit receive the same digit. -/
theorem ucand_proper (b : Board)
    (hlen : ∀ c, inRange c → (b.get_digits_available c).length = 1)
    (hfill : ∀ c v, inRange c → b.getItem c = some v → ucand b c = v) :
    ∀ c c2, inRange c → inRange c2 → c ≠ c2 → sameUnit c c2 →
      ucand b c ≠ ucand b c2 := by
  intro c c2 hc hc2 hne hsu
  obtain ⟨r1, j1⟩ := c
  obtain ⟨r2, j2⟩ := c2
  rcases hsu with h | h | ⟨hband, hstack⟩
  · simp only at h
    subst h
    exact no_row_clash b hlen hfill r1 j1 j2 hc.1 hc.2 hc2.2
      (fun hj => hne (by rw [hj]))
  · simp only at h
    subst h
    exact no_col_clash b hlen hfill j1 r1 r2 hc.2 hc.1 hc2.1
      (fun hi => hne (by rw [hi]))
  · exact no_blk_clash b hlen hfill r1 j1 r2 j2 hc.1 hc.2 hc2.1 hc2.2
      hband hstack hne

/-! ## A proper assignment drives the search to success -/

/-- If an assignment is proper and the board only holds values of the
assignment, then the assigned digit of a coordinate is always among its
available digits. -/
theorem assign_in_digits (b : Board) (u : Coord → Nat)
    (hp : ∀ c c2, inRange c → inRange c2 → c ≠ c2 → sameUnit c c2 →
      u c ≠ u c2)
    (hu : ∀ c, inRange c → 1 ≤ u c ∧ u c ≤ 9)
    (hcompat : ∀ c2, inRange c2 →
      b.getItem c2 = none ∨ b.getItem c2 = some (u c2))
    (c : Coord) (hc : inRange c) : u c ∈ b.get_digits_available c := by
  have hb := hu c hc
  refine (mem_digits_iff b c (u c)).2 ⟨⟨hb.1, by omega⟩, ?_, ?_, ?_⟩
  · rintro ⟨y, x, hy, hx, hnec, hcell⟩
    have hpr : inRange (c.1 / 3 * 3 + y, c.2 / 3 * 3 + x) :=
      ⟨by have := hc.1; omega, by have := hc.2; omega⟩
    have hget : b.getItem (c.1 / 3 * 3 + y, c.2 / 3 * 3 + x) = some (u c) :=
      hcell
    rcases hcompat _ hpr with hn | hs
    · rw [hn] at hget; exact absurd hget (by simp)
    · rw [hs] at hget
      have : u (c.1 / 3 * 3 + y, c.2 / 3 * 3 + x) = u c := by injection hget
      exact hp c _ hc hpr (fun he => hnec (by rw [← he])) 
        (Or.inr (Or.inr ⟨by simp; have := hc.1; omega,
          by simp; have := hc.2; omega⟩)) this.symm
  · rintro ⟨y, hy, hney, hcell⟩
    have hpr : inRange ((y, c.2) : Coord) := ⟨hy, hc.2⟩
    have hget : b.getItem (y, c.2) = some (u c) := hcell
    rcases hcompat _ hpr with hn | hs
    · rw [hn] at hget; exact absurd hget (by simp)
    · rw [hs] at hget
      have : u (y, c.2) = u c := by injection hget
      exact hp c _ hc hpr
        (fun he => hney (congrArg Prod.fst he).symm)
        (Or.inr (Or.inl (by simp))) this.symm
  · rintro ⟨x, hx, hnex, hcell⟩
    have hpr : inRange ((c.1, x) : Coord) := ⟨hc.1, hx⟩
    have hget : b.getItem (c.1, x) = some (u c) := hcell
    rcases hcompat _ hpr with hn | hs
    · rw [hn] at hget; exact absurd hget (by simp)
    · rw [hs] at hget
      have : u (c.1, x) = u c := by injection hget
      exact hp c _ hc hpr
        (fun he => hnex (congrArg Prod.snd he).symm)
        (Or.inl (by simp)) this.symm

/-- With enough fuel, the search succeeds from any cursor position on a
board whose empty cells can be completed by a proper assignment and
whose available cells from the cursor on are still empty. -/
theorem rec_success (u : Coord → Nat)
    (hp : ∀ c c2, inRange c → inRange c2 → c ≠ c2 → sameUnit c c2 →
      u c ≠ u c2)
    (hu : ∀ c, inRange c → 1 ≤ u c ∧ u c ≤ 9) :
    ∀ fuel b c, c.2 < 9 → cidx c ≤ 81 → 81 - cidx c ≤ fuel → WF b →
      (∀ c2, inRange c2 →
        b.getItem c2 = none ∨ b.getItem c2 = some (u c2)) →
      (∀ c2, inRange c2 → b.is_available c2 = true →
        cidx c ≤ cidx c2 → b.getItem c2 = none) →
      ∃ b2, recursion_solve fuel b c = some (b2, true) := by
  intro fuel
  induction fuel with
  | zero =>
    intro b c hc9 hle hf hW hcompat hinv
    have : c = (9, 0) := sentinel_of_cidx c hc9 (by omega)
    subst this
    exact ⟨b, recursion_solve_sentinel 0 b⟩
  | succ n ih =>
    intro b c hc9 hle hf hW hcompat hinv
    by_cases hc : c = (9, 0)
    · subst hc; exact ⟨b, recursion_solve_sentinel (n + 1) b⟩
    · have hlt : cidx c < 81 := by
        rcases Nat.lt_or_ge (cidx c) 81 with h1 | h1
        · exact h1
        · exact absurd (sentinel_of_cidx c hc9 (by omega)) hc
      obtain ⟨hnext, hlt9⟩ := next_coord_facts c hc9
      have hcr : inRange c := inRange_of_cidx c hc9 hc hle
      cases ha : b.is_available c with
      | false =>
        obtain ⟨b2, hb2⟩ := ih b (next_coord c) hlt9 (by omega) (by omega)
          hW hcompat (fun c2 hr hav hge => hinv c2 hr hav (by omega))
        exact ⟨b2, by rw [recursion_solve_skip n b c hc ha]; exact hb2⟩
      | true =>
        have hmem : u c ∈ b.get_digits_available c :=
          assign_in_digits b u hp hu hcompat c hcr
        have hloop : ∀ ds, u c ∈ ds → ∀ v0, ∃ b2,
            digitFold (fun bb => recursion_solve n bb (next_coord c)) c
              (some (b.forceSet c v0, false)) ds = some (b2, true) := by
          intro ds
          induction ds with
          | nil => intro hm; exact absurd hm (by simp)
          | cons d ds ihds =>
            intro hm v0
            rw [digitFold_cons, forceSet_forceSet]
            have hbbW : WF (b.forceSet c (some d)) :=
              WF_forceSet b c (some d) hW
            have hbinv : ∀ c2, inRange c2 →
                (b.forceSet c (some d)).is_available c2 = true →
                cidx (next_coord c) ≤ cidx c2 →
                (b.forceSet c (some d)).getItem c2 = none := by
              intro c2 hr hav hge
              have hne2 : c2 ≠ c := by intro he; rw [he] at hge; omega
              rw [getItem_forceSet_ne _ _ _ _ hne2]
              rw [forceSet_is_available] at hav
              exact hinv c2 hr hav (by omega)
            by_cases hd : d = u c
            · subst hd
              have hcompat2 : ∀ c2, inRange c2 →
                  (b.forceSet c (some (u c))).getItem c2 = none ∨
                  (b.forceSet c (some (u c))).getItem c2 = some (u c2) := by
                intro c2 hr
                by_cases he : c2 = c
                · subst he
                  right
                  exact getItem_forceSet_self b c2 (some (u c2)) hW hr
                · rw [getItem_forceSet_ne _ _ _ _ he]
                  exact hcompat c2 hr
              obtain ⟨b3, hb3⟩ := ih (b.forceSet c (some (u c)))
                (next_coord c) hlt9 (by omega) (by omega) hbbW hcompat2 hbinv
              refine ⟨b3, ?_⟩
              rw [hb3, digitFold_true]
            · have htot := rec_total n (b.forceSet c (some d)) (next_coord c)
                hlt9 (by omega) (by omega)
              rcases hF : recursion_solve n (b.forceSet c (some d))
                  (next_coord c) with _ | ⟨b3, res⟩
              · rw [hF] at htot; simp at htot
              · cases res with
                | true => exact ⟨b3, by rw [digitFold_true]⟩
                | false =>
                  have hb3 : b3 = b.forceSet c (some d) :=
                    rec_reset n (b.forceSet c (some d)) (next_coord c) b3
                      hlt9 (by omega) hbinv hF
                  subst hb3
                  exact ihds (by
                    rcases List.mem_cons.1 hm with he | hin
                    · exact absurd he.symm hd
                    · exact hin) (some d)
        obtain ⟨b2, hb2⟩ := hloop (b.get_digits_available c) hmem (b.getItem c)
        rw [forceSet_self_id] at hb2
        refine ⟨b2, ?_⟩
        rw [recursion_solve_avail n b c hc ha, hb2]

/-! ## Unpacking the gate and the is_solved check -/

theorem staticConsistent_spec (b : Board) (h : staticConsistent b = true) :
    ∀ c, c ∈ b.static_digits_index →
      ∃ v, b.getItem c = some v ∧ v ∈ b.get_digits_available c := by
  intro c hc
  rw [staticConsistent, List.all_eq_true] at h
  have := h c hc
  rcases hg : b.getItem c with _ | v
  · rw [hg] at this; simp at this
  · rw [hg] at this
    simp only [decide_eq_true_eq] at this
    exact ⟨v, rfl, this⟩

theorem staticConsistent_false (b : Board) (c : Coord)
    (hc : c ∈ b.static_digits_index)
    (h : ∀ v, b.getItem c = some v → v ∉ b.get_digits_available c) :
    staticConsistent b = false := by
  rw [← Bool.not_eq_true, staticConsistent, List.all_eq_true]
  intro hall
  have := hall c hc
  rcases hg : b.getItem c with _ | v
  · rw [hg] at this; simp at this
  · rw [hg] at this
    simp only [decide_eq_true_eq] at this
    exact h v hg this

theorem is_solved_iff (b : Board) :
    b.is_solved = true ↔
      ∀ i j, i < 9 → j < 9 →
        (b.get_digits_available (i, j)).length = 1 := by
  rw [Board.is_solved]
  simp only [List.all_eq_true, List.mem_range, decide_eq_true_eq]
  constructor
  · intro h i j hi hj; exact h i hi j hj
  · intro h i hi j hj; exact h i j hi hj

/-! ## Fully filled valid grids have singleton candidate lists -/

theorem eq_singleton_of_mem_iff {v : Nat} :
    ∀ l : List Nat, l.Nodup → (∀ w, w ∈ l ↔ w = v) → l = [v] := by
  intro l hnd hiff
  cases l with
  | nil => exact absurd ((hiff v).2 rfl) (by simp)
  | cons a t =>
    have ha : a = v := (hiff a).1 (by simp)
    subst ha
    cases t with
    | nil => rfl
    | cons a2 t2 =>
      have ha2 : a2 = a := (hiff a2).1 (by simp)
      subst ha2
      simp at hnd

theorem digits_nodup (b : Board) (c : Coord) :
    (b.get_digits_available c).Nodup := by
  rw [Board.get_digits_available]
  exact List.Nodup.filter _ (List.nodup_range' 1 9)

/-- On a well-formed, fully filled grid with digits 1 to 9 and no
repetition inside a unit, the available digits of a coordinate are
exactly its own value. -/
theorem validFull_digits (b : Board) (hW : WF b)
    (hfull : ∀ i j, i < 9 → j < 9 →
      ∃ d, b.getItem (i, j) = some d ∧ 1 ≤ d ∧ d ≤ 9)
    (hdist : ∀ c c2, inRange c → inRange c2 → c ≠ c2 → sameUnit c c2 →
      b.getItem c ≠ b.getItem c2) :
    ∀ c, inRange c → ∀ v, b.getItem c = some v →
      b.get_digits_available c = [v] := by
  intro c hc v hv
  have hvb : 1 ≤ v ∧ v ≤ 9 := by
    obtain ⟨d, hd, h1, h9⟩ := hfull c.1 c.2 hc.1 hc.2
    have : b.getItem (c.1, c.2) = some v := hv
    rw [this] at hd
    have hdv : d = v := by injection hd with h2; omega
    omega
  refine eq_singleton_of_mem_iff _ (digits_nodup b c) ?_
  intro w
  constructor
  · intro hw
    by_contra hne
    obtain ⟨⟨hw1, hw9⟩, hnb, hnc, hnr⟩ := (mem_digits_iff b c w).1 hw
    set f : Fin 9 → Fin 9 := fun j =>
      ⟨(b.getItem (c.1, j.val)).getD 0 - 1, by
        obtain ⟨d, hd, h1, h9⟩ := hfull c.1 j.val hc.1 j.isLt
        rw [hd]; simp; omega⟩ with hf
    have hinj : Function.Injective f := by
      intro j1 j2 he
      by_contra hjne
      obtain ⟨d1, hd1, h11, h19⟩ := hfull c.1 j1.val hc.1 j1.isLt
      obtain ⟨d2, hd2, h21, h29⟩ := hfull c.1 j2.val hc.1 j2.isLt
      have hne12 := hdist (c.1, j1.val) (c.1, j2.val) ⟨hc.1, j1.isLt⟩
        ⟨hc.1, j2.isLt⟩
        (by intro hpq; rw [Prod.ext_iff] at hpq
            exact hjne (Fin.ext hpq.2))
        (Or.inl rfl)
      rw [hd1, hd2] at hne12
      have : d1 - 1 = d2 - 1 := by
        have h1 := congrArg Fin.val he
        simpa [hf, hd1, hd2] using h1
      have : d1 = d2 := by omega
      exact hne12 (by rw [this])
    have hsurj := Finite.injective_iff_surjective.1 hinj
    obtain ⟨j, hj⟩ := hsurj ⟨w - 1, by omega⟩
    obtain ⟨d, hd, h1, h9⟩ := hfull c.1 j.val hc.1 j.isLt
    have hdw : d = w := by
      have h2 := congrArg Fin.val hj
      simp [hf, hd] at h2
      omega
    subst hdw
    have hjne : j.val ≠ c.2 := by
      intro he
      have : b.getItem (c.1, j.val) = some v := by
        rw [he] at hd ⊢
        exact hv
      rw [hd] at this
      exact hne (by injection this)
    exact hnr ⟨j.val, j.isLt, hjne, hd⟩
  · intro hw
    subst hw
    refine (mem_digits_iff b c w).2 ⟨⟨hvb.1, by omega⟩, ?_, ?_, ?_⟩
    · rintro ⟨y, x, hy, hx, hnec, hcell⟩
      have hpr : inRange (c.1 / 3 * 3 + y, c.2 / 3 * 3 + x) :=
        ⟨by have := hc.1; omega, by have := hc.2; omega⟩
      have hget : b.getItem (c.1 / 3 * 3 + y, c.2 / 3 * 3 + x) = some w :=
        hcell
      exact hdist _ c hpr hc hnec
        (Or.inr (Or.inr ⟨by simp; have := hc.1; omega,
          by simp; have := hc.2; omega⟩))
        (by rw [hget, hv])
    · rintro ⟨y, hy, hney, hcell⟩
      have hget : b.getItem (y, c.2) = some w := hcell
      exact hdist (y, c.2) c ⟨hy, hc.2⟩ hc
        (fun he => hney (congrArg Prod.fst he))
        (Or.inr (Or.inl (by simp))) (by rw [hget, hv])
    · rintro ⟨x, hx, hnex, hcell⟩
      have hget : b.getItem (c.1, x) = some w := hcell
      exact hdist (c.1, x) c ⟨hc.1, hx⟩ hc
        (fun he => hnex (congrArg Prod.snd he))
        (Or.inl rfl) (by rw [hget, hv])

/-! ## Properties of the private copy and of is_solvable -/

theorem new_board_data (b : Board) : b.new_board.data = b.data := by
  rw [new_board_eq, mkBoard_data]

theorem new_board_getItem (b : Board) (c : Coord) :
    b.new_board.getItem c = b.getItem c := by
  rw [Board.getItem, Board.getItem, new_board_data]

theorem WF_new_board (b : Board) (hW : WF b) : WF b.new_board := by
  obtain ⟨h1, h2⟩ := hW
  exact ⟨by rw [new_board_data]; exact h1,
    fun i hi => by rw [new_board_data]; exact h2 i hi⟩

theorem new_board_static_mem (b : Board) (hW : WF b) (c : Coord) :
    c ∈ b.new_board.static_digits_index ↔
      c.1 < 9 ∧ c.2 < 9 ∧ b.getItem c ≠ none := by
  rw [new_board_eq]
  show c ∈ staticIndex b.data ↔ _
  rw [staticIndex_mem, hW.1]
  constructor
  · rintro ⟨h1, h2, h3⟩
    refine ⟨h1, by rw [hW.2 c.1 h1] at h2; exact h2, ?_⟩
    rw [Option.isSome_iff_ne_none] at h3
    exact h3
  · rintro ⟨h1, h2, h3⟩
    refine ⟨h1, by rw [hW.2 c.1 h1]; exact h2, ?_⟩
    rw [Option.isSome_iff_ne_none]
    exact h3

theorem new_board_avail (b : Board) (hW : WF b) (c : Coord)
    (hc : inRange c) :
    b.new_board.is_available c = true ↔ b.getItem c = none := by
  rw [is_available_iff, new_board_static_mem b hW c]
  constructor
  · intro h
    by_contra hne
    exact h ⟨hc.1, hc.2, hne⟩
  · intro h hc2
    exact hc2.2.2 h

theorem is_solvable_unfold (b : Board) :
    b.is_solvable =
      if staticConsistent b.new_board then
        match recursion_solve 81 b.new_board (0, 0) with
        | some (b2, _) => if b2.is_solved then some b2 else none
        | none => none
      else none := by
  rw [Board.is_solvable]
  simp only [Board.is_solvable_full]
  by_cases h : staticConsistent b.new_board
  · rw [if_pos h, if_pos h]
    rcases recursion_solve 81 b.new_board (0, 0) with _ | ⟨b2, res⟩
    · rfl
    · by_cases hs : b2.is_solved <;> simp [hs]
  · rw [if_neg h, if_neg h]

theorem is_solvable_receiver (b : Board) : b.is_solvable_full.2 = b := by
  simp only [Board.is_solvable_full]
  by_cases h : staticConsistent b.new_board
  · rw [if_pos h]
    rcases recursion_solve 81 b.new_board (0, 0) with _ | ⟨b2, res⟩
    · rfl
    · rfl
  · rw [if_neg h]

/-! ## Concrete grids used in the claim instances -/

/-- A complete valid grid (each row a cyclic shift of 1 to 9 compatible
with the block structure). -/
def SGrid : GridData :=
  [[some 1, some 2, some 3, some 4, some 5, some 6, some 7, some 8, some 9],
   [some 4, some 5, some 6, some 7, some 8, some 9, some 1, some 2, some 3],
   [some 7, some 8, some 9, some 1, some 2, some 3, some 4, some 5, some 6],
   [some 2, some 3, some 4, some 5, some 6, some 7, some 8, some 9, some 1],
   [some 5, some 6, some 7, some 8, some 9, some 1, some 2, some 3, some 4],
   [some 8, some 9, some 1, some 2, some 3, some 4, some 5, some 6, some 7],
   [some 3, some 4, some 5, some 6, some 7, some 8, some 9, some 1, some 2],
   [some 6, some 7, some 8, some 9, some 1, some 2, some 3, some 4, some 5],
   [some 9, some 1, some 2, some 3, some 4, some 5, some 6, some 7, some 8]]

/-- SGrid with the corner cell emptied: every coordinate still has
exactly one available digit, although the corner is not filled. -/
def g80 : GridData :=
  [[none, some 2, some 3, some 4, some 5, some 6, some 7, some 8, some 9],
   [some 4, some 5, some 6, some 7, some 8, some 9, some 1, some 2, some 3],
   [some 7, some 8, some 9, some 1, some 2, some 3, some 4, some 5, some 6],
   [some 2, some 3, some 4, some 5, some 6, some 7, some 8, some 9, some 1],
   [some 5, some 6, some 7, some 8, some 9, some 1, some 2, some 3, some 4],
   [some 8, some 9, some 1, some 2, some 3, some 4, some 5, some 6, some 7],
   [some 3, some 4, some 5, some 6, some 7, some 8, some 9, some 1, some 2],
   [some 6, some 7, some 8, some 9, some 1, some 2, some 3, some 4, some 5],
   [some 9, some 1, some 2, some 3, some 4, some 5, some 6, some 7, some 8]]

/-- SGrid with the corner cell overwritten by 2, duplicating its row and
block neighbour. -/
def gdup : GridData :=
  [[some 2, some 2, some 3, some 4, some 5, some 6, some 7, some 8, some 9],
   [some 4, some 5, some 6, some 7, some 8, some 9, some 1, some 2, some 3],
   [some 7, some 8, some 9, some 1, some 2, some 3, some 4, some 5, some 6],
   [some 2, some 3, some 4, some 5, some 6, some 7, some 8, some 9, some 1],
   [some 5, some 6, some 7, some 8, some 9, some 1, some 2, some 3, some 4],
   [some 8, some 9, some 1, some 2, some 3, some 4, some 5, some 6, some 7],
   [some 3, some 4, some 5, some 6, some 7, some 8, some 9, some 1, some 2],
   [some 6, some 7, some 8, some 9, some 1, some 2, some 3, some 4, some 5],
   [some 9, some 1, some 2, some 3, some 4, some 5, some 6, some 7, some 8]]

/-! ## The claims -/

/-- C1: for every board (well-formed, with the Board invariant that
static coordinates are in range and non-empty), is_solvable returns
either none or a board that satisfies is_solved, holds the same digit as
the input at every static coordinate, and holds a digit 1 to 9 at every
non-static coordinate.  The third part rests on the combinatorial fact
proved above: a failed search hands back the untouched copy, and the
untouched copy can pass the final is_solved check only if its
unique-candidate assignment is proper, in which case the search could
not have failed. -/
theorem claim_C1 (b b2 : Board) (hW : WF b)
    (hs : ∀ c, c ∈ b.static_digits_index → inRange c ∧ b.getItem c ≠ none)
    (h : b.is_solvable = some b2) :
    b2.is_solved = true ∧
    (∀ c, c ∈ b.static_digits_index → b2.getItem c = b.getItem c) ∧
    (∀ i j, i < 9 → j < 9 → (i, j) ∉ b.static_digits_index →
      ∃ d, b2.getItem (i, j) = some d ∧ 1 ≤ d ∧ d ≤ 9) := by
  rw [is_solvable_unfold] at h
  by_cases hg : staticConsistent b.new_board
  swap
  · rw [if_neg hg] at h; exact absurd h (by simp)
  rw [if_pos hg] at h
  have hWnb : WF b.new_board := WF_new_board b hW
  rcases hrec : recursion_solve 81 b.new_board (0, 0) with _ | ⟨b3, res⟩
  · rw [hrec] at h; exact absurd h (by simp)
  rw [hrec] at h
  replace h : (if b3.is_solved = true then some b3 else none) = some b2 := h
  by_cases hsol : b3.is_solved
  swap
  · rw [if_neg hsol] at h; exact absurd h (by simp)
  rw [if_pos hsol] at h
  obtain rfl : b3 = b2 := by injection h
  have hinv : ∀ c2, inRange c2 → b.new_board.is_available c2 = true →
      cidx (0, 0) ≤ cidx c2 → b.new_board.getItem c2 = none := by
    intro c2 hr hav _
    rw [new_board_getItem]
    rw [new_board_avail b hW c2 hr] at hav
    exact hav
  cases res with
  | false =>
    exfalso
    have hreset : b3 = b.new_board :=
      rec_reset 81 b.new_board (0, 0) b3 (by decide) (by decide) hinv hrec
    subst hreset
    have hlen : ∀ c, inRange c →
        (b.new_board.get_digits_available c).length = 1 := by
      intro c hc
      have := (is_solved_iff _).1 hsol c.1 c.2 hc.1 hc.2
      simpa using this
    have hfill : ∀ c v, inRange c → b.new_board.getItem c = some v →
        ucand b.new_board c = v := by
      intro c v hc hv
      have hbne : b.getItem c ≠ none := by
        rw [← new_board_getItem, hv]; simp
      have hcs : c ∈ b.new_board.static_digits_index :=
        (new_board_static_mem b hW c).2 ⟨hc.1, hc.2, hbne⟩
      obtain ⟨v2, hv2, hv2m⟩ := staticConsistent_spec _ hg c hcs
      have hveq : v2 = v := by
        rw [hv] at hv2; injection hv2 with h2; exact h2.symm
      subst hveq
      rw [ucand_digits _ c (hlen c hc)] at hv2m
      have := List.mem_singleton.1 hv2m
      exact this.symm
    have hu := fun c hc => ucand_bounds b.new_board c (hlen c hc)
    have hp := ucand_proper b.new_board hlen hfill
    have hcompat : ∀ c2, inRange c2 →
        b.new_board.getItem c2 = none ∨
        b.new_board.getItem c2 = some (ucand b.new_board c2) := by
      intro c2 hr
      rcases hg2 : b.new_board.getItem c2 with _ | v
      · exact Or.inl rfl
      · exact Or.inr (by rw [hfill c2 v hr hg2])
    obtain ⟨b4, hb4⟩ := rec_success (ucand b.new_board) hp hu 81
      b.new_board (0, 0) (by decide) (by decide) (by decide)
      hWnb hcompat hinv
    rw [hrec] at hb4
    have hpair : (b.new_board, false) = (b4, true) := by injection hb4
    exact absurd (by injection hpair : false = true) (by simp)
  | true =>
    refine ⟨hsol, ?_, ?_⟩
    · intro c hc
      obtain ⟨hcr, hcne⟩ := hs c hc
      have hcs : c ∈ b.new_board.static_digits_index :=
        (new_board_static_mem b hW c).2 ⟨hcr.1, hcr.2, hcne⟩
      have hav : b.new_board.is_available c = false :=
        (is_available_false_iff _ c).2 hcs
      have hfr := rec_frame 81 b.new_board (0, 0) (b3, true) (by decide)
        hrec c (Or.inl hav)
      rw [new_board_getItem] at hfr
      exact hfr
    · intro i j hi hj hns
      rcases hcase : b.new_board.getItem (i, j) with _ | v
      · have hbn : b.getItem (i, j) = none := by
          rw [← new_board_getItem]; exact hcase
        have hav : b.new_board.is_available (i, j) = true :=
          (new_board_avail b hW (i, j) ⟨hi, hj⟩).2 hbn
        obtain ⟨d, h1, h9, hgd⟩ := rec_fills 81 b.new_board (0, 0) b3
          (by decide) (by decide) hWnb hrec (i, j) ⟨hi, hj⟩
          (Nat.zero_le _) hav
        exact ⟨d, hgd, h1, h9⟩
      · have hbne : b.getItem (i, j) ≠ none := by
          rw [← new_board_getItem, hcase]; simp
        have hcs : (i, j) ∈ b.new_board.static_digits_index :=
          (new_board_static_mem b hW (i, j)).2 ⟨hi, hj, hbne⟩
        obtain ⟨v2, hv2, hv2m⟩ := staticConsistent_spec _ hg (i, j) hcs
        have hbounds := digits_bounds _ _ _ hv2m
        have hav : b.new_board.is_available (i, j) = false :=
          (is_available_false_iff _ _).2 hcs
        have hfr := rec_frame 81 b.new_board (0, 0) (b3, true) (by decide)
          hrec (i, j) (Or.inl hav)
        exact ⟨v2, by rw [hfr]; exact hv2, hbounds.1, hbounds.2⟩

/-- C1 witness: the complete valid grid SGrid. -/
theorem claim_C1_witness :
    (mkBoard SGrid).is_solved = true ∧
    (∀ c, c ∈ (mkBoard SGrid).static_digits_index →
      (mkBoard SGrid).getItem c = (mkBoard SGrid).getItem c) ∧
    (∀ i j, i < 9 → j < 9 → (i, j) ∉ (mkBoard SGrid).static_digits_index →
      ∃ d, (mkBoard SGrid).getItem (i, j) = some d ∧ 1 ≤ d ∧ d ≤ 9) :=
  claim_C1 (mkBoard SGrid) (mkBoard SGrid) (by decide) (by decide) (by decide)

/-- C2 (amended): is_solved is true exactly when every coordinate has
one available digit; every fully filled grid of digits 1 to 9 with no
repetition inside a unit satisfies it, but it does not require every
cell to be filled (see the counterexample). -/
theorem claim_C2 (b : Board) :
    (b.is_solved = true ↔ ∀ i j, i < 9 → j < 9 →
      (b.get_digits_available (i, j)).length = 1) ∧
    (WF b →
      (∀ i, i < 9 → ∀ j, j < 9 →
        ∃ d, d < 10 ∧ 1 ≤ d ∧ b.getItem (i, j) = some d) →
      (∀ i, i < 9 → ∀ j, j < 9 → ∀ i2, i2 < 9 → ∀ j2, j2 < 9 →
        (((i, j) : Coord) ≠ (i2, j2) → sameUnit (i, j) (i2, j2) →
        b.getItem (i, j) ≠ b.getItem (i2, j2))) →
      b.is_solved = true) := by
  refine ⟨is_solved_iff b, ?_⟩
  intro hW hfull hdist
  have hfullp : ∀ i j, i < 9 → j < 9 →
      ∃ d, b.getItem (i, j) = some d ∧ 1 ≤ d ∧ d ≤ 9 := by
    intro i j hi hj
    obtain ⟨d, hlt, h1, hd⟩ := hfull i hi j hj
    exact ⟨d, hd, h1, by omega⟩
  have hdistp : ∀ c c2 : Coord, inRange c → inRange c2 → c ≠ c2 →
      sameUnit c c2 → b.getItem c ≠ b.getItem c2 := by
    intro c c2 hc hc2 hne hsu
    have := hdist c.1 hc.1 c.2 hc.2 c2.1 hc2.1 c2.2 hc2.2
      (by simpa using hne) (by simpa using hsu)
    simpa using this
  rw [is_solved_iff]
  intro i j hi hj
  obtain ⟨d, hd, h1, h9⟩ := hfullp i j hi hj
  rw [validFull_digits b hW hfullp hdistp (i, j) ⟨hi, hj⟩ d hd]
  rfl

/-- C2 counterexample: on g80 every coordinate has exactly one available
digit, yet the corner cell is empty, refuting the claimed equivalence
with being fully filled. -/
theorem claim_C2_counterexample :
    (mkBoard g80).is_solved = true ∧ (mkBoard g80).getItem (0, 0) = none :=
  ⟨by decide, by decide⟩

set_option synthInstance.maxSize 1000 in
/-- C2 witness: the full valid grid satisfies is_solved. -/
theorem claim_C2_witness : (mkBoard SGrid).is_solved = true :=
  (claim_C2 (mkBoard SGrid)).2 (by decide) (by decide) (by decide)

/-- C3 (amended): an available digit never occurs at another coordinate
of the row, column or block; conversely a digit 1 to 9 held by the cell
is available provided it occurs at no other coordinate of the row,
column or block (a duplicate elsewhere does disqualify it, refuting the
unconditional claim). -/
theorem claim_C3 (b : Board) :
    (∀ c c2 d, inRange c → inRange c2 → c2 ≠ c → sameUnit c c2 →
      d ∈ b.get_digits_available c → b.getItem c2 ≠ some d) ∧
    (∀ c d, inRange c → b.getItem c = some d → 1 ≤ d → d ≤ 9 →
      (∀ i, i < 9 → ∀ j, j < 9 → (((i, j) : Coord) ≠ c → sameUnit c (i, j) →
        b.getItem (i, j) ≠ some d)) →
      d ∈ b.get_digits_available c) := by
  constructor
  · intro c c2 d hc hc2 hne hsu hmem hget
    obtain ⟨hb, hnb, hnc, hnr⟩ := (mem_digits_iff b c d).1 hmem
    rcases vis_of_peer b c c2 d hc2 hne hsu hget with h | h | h
    · exact hnb h
    · exact hnc h
    · exact hnr h
  · intro c d hc hget h1 h9 hpeers
    refine (mem_digits_iff b c d).2 ⟨⟨h1, by omega⟩, ?_, ?_, ?_⟩
    · intro hvis
      obtain ⟨c2, hr2, hne2, hsu2, hget2⟩ :=
        peer_of_vis b c d hc (Or.inl hvis)
      exact hpeers c2.1 hr2.1 c2.2 hr2.2 (by simpa using hne2)
        (by simpa using hsu2) (by simpa using hget2)
    · intro hvis
      obtain ⟨c2, hr2, hne2, hsu2, hget2⟩ :=
        peer_of_vis b c d hc (Or.inr (Or.inl hvis))
      exact hpeers c2.1 hr2.1 c2.2 hr2.2 (by simpa using hne2)
        (by simpa using hsu2) (by simpa using hget2)
    · intro hvis
      obtain ⟨c2, hr2, hne2, hsu2, hget2⟩ :=
        peer_of_vis b c d hc (Or.inr (Or.inr hvis))
      exact hpeers c2.1 hr2.1 c2.2 hr2.2 (by simpa using hne2)
        (by simpa using hsu2) (by simpa using hget2)

/-- C3 counterexample: a cell whose value is duplicated in its row does
not keep its own value among the available digits. -/
theorem claim_C3_counterexample :
    (mkBoard gdup).getItem (0, 0) = some 2 ∧
    2 ∉ (mkBoard gdup).get_digits_available (0, 0) :=
  ⟨by decide, by decide⟩

set_option synthInstance.maxSize 1000 in
/-- C3 witness: the exclusion direction on SGrid at the corner, and the
self-membership direction on a cell with no duplicate. -/
theorem claim_C3_witness :
    (mkBoard SGrid).getItem (0, 1) ≠ some 1 ∧
    1 ∈ (mkBoard SGrid).get_digits_available (0, 0) :=
  ⟨(claim_C3 (mkBoard SGrid)).1 (0, 0) (0, 1) 1 (by decide) (by decide)
    (by decide) (Or.inl rfl) (by decide),
   (claim_C3 (mkBoard SGrid)).2 (0, 0) 1 (by decide) (by decide)
    (by decide) (by decide) (by decide)⟩

/-- C4: is_solvable never mutates the receiver: with the receiver state
threaded through the call, the state after the call is the state before
it on every path, and the result is read off the untouched pair. -/
theorem claim_C4 (b : Board) :
    b.is_solvable_full.2 = b ∧ b.is_solvable = b.is_solvable_full.1 :=
  ⟨is_solvable_receiver b, rfl⟩

/-- A duplicated digit in a row makes the consistency gate fail, so
is_solvable returns none without running the recursive search. -/
theorem row_dup_gate (b : Board) (i j1 j2 d : Nat) (hW : WF b)
    (hi : i < 9) (hj1 : j1 < 9) (hj2 : j2 < 9) (hne : j1 ≠ j2)
    (h1 : b.getItem (i, j1) = some d) (h2 : b.getItem (i, j2) = some d) :
    staticConsistent b.new_board = false ∧ b.is_solvable = none := by
  have hgate : staticConsistent b.new_board = false := by
    apply staticConsistent_false _ (i, j1)
    · exact (new_board_static_mem b hW (i, j1)).2
        ⟨hi, hj1, by rw [h1]; simp⟩
    · intro v hv hmem
      have hveq : v = d := by
        rw [new_board_getItem] at hv
        rw [h1] at hv; injection hv with h3; exact h3.symm
      obtain ⟨hb, hnb, hnc, hnr⟩ := (mem_digits_iff _ _ _).1 hmem
      apply hnr
      refine ⟨j2, hj2, hne.symm, ?_⟩
      show cellAt b.new_board.data i j2 = some v
      rw [new_board_data, hveq]
      exact h2
  refine ⟨hgate, ?_⟩
  rw [is_solvable_unfold, if_neg (by rw [hgate]; simp)]

/-- C5: a grid whose fixed cells violate the row constraint (two equal
digits among fixed cells of the same row) fails the consistency check,
and is_solvable returns none without entering the recursive search. -/
theorem claim_C5 (b : Board) (i j1 j2 d : Nat) (hW : WF b)
    (hi : i < 9) (hj1 : j1 < 9) (hj2 : j2 < 9) (hne : j1 ≠ j2)
    (hs1 : (i, j1) ∈ b.static_digits_index)
    (hs2 : (i, j2) ∈ b.static_digits_index)
    (h1 : b.getItem (i, j1) = some d) (h2 : b.getItem (i, j2) = some d) :
    staticConsistent b.new_board = false ∧ b.is_solvable = none :=
  row_dup_gate b i j1 j2 d hW hi hj1 hj2 hne h1 h2

/-- C5 witness: the grid with a duplicated 2 in its first row. -/
theorem claim_C5_witness :
    staticConsistent (mkBoard gdup).new_board = false ∧
    (mkBoard gdup).is_solvable = none :=
  claim_C5 (mkBoard gdup) 0 0 1 2 (by decide) (by decide) (by decide)
    (by decide) (by decide) (by decide) (by decide) (by decide) (by decide)

/-- C6: setting an available coordinate succeeds and a subsequent read
returns the written value; setting a fixed coordinate fails (the raised
IndexError is the false flag) and leaves the board, cells and fixed set
alike, unchanged. -/
theorem claim_C6 (b : Board) (c : Coord) (v : Cell) (hW : WF b)
    (hc : inRange c) :
    (b.is_available c = true →
      (b.setItem c v).2 = true ∧ (b.setItem c v).1.getItem c = v) ∧
    (b.is_available c = false →
      (b.setItem c v).2 = false ∧ (b.setItem c v).1 = b) := by
  constructor
  · intro hav
    rw [Board.setItem, if_pos hav]
    exact ⟨rfl, getItem_forceSet_self b c v hW hc⟩
  · intro hav
    rw [Board.setItem, if_neg (by rw [hav]; simp)]
    exact ⟨rfl, rfl⟩

/-- C6 witness: writing 5 into the empty corner of g80 succeeds and
reads back; writing into the fixed cell next to it fails unchanged. -/
theorem claim_C6_witness :
    ((mkBoard g80).setItem (0, 0) (some 5)).2 = true ∧
    ((mkBoard g80).setItem (0, 0) (some 5)).1.getItem (0, 0) = some 5 ∧
    ((mkBoard g80).setItem (0, 1) (some 5)).2 = false ∧
    ((mkBoard g80).setItem (0, 1) (some 5)).1 = mkBoard g80 :=
  have hA := (claim_C6 (mkBoard g80) (0, 0) (some 5) (by decide)
    (by decide)).1 (by decide)
  have hB := (claim_C6 (mkBoard g80) (0, 1) (some 5) (by decide)
    (by decide)).2 (by decide)
  ⟨hA.1, hA.2, hB.1, hB.2⟩

/-- C7: is_solvable reads only the cell data of its receiver, so two
calls on grids with identical cell data return identical results. -/
theorem claim_C7 (b b2 : Board) (h : b.data = b2.data) :
    b.is_solvable = b2.is_solvable := by
  have hnb : b.new_board = b2.new_board := by
    rw [new_board_eq, new_board_eq, h]
  rw [is_solvable_unfold, is_solvable_unfold, hnb]

/-- C7 witness: the same grid data under two distinct Board values. -/
theorem claim_C7_witness :
    (mkBoard g80).is_solvable = (Board.mk g80 []).is_solvable :=
  claim_C7 (mkBoard g80) (Board.mk g80 []) rfl

/-- Available digits depend only on the cell data. -/
theorem digits_data_eq (b b2 : Board) (h : b.data = b2.data) (c : Coord) :
    b.get_digits_available c = b2.get_digits_available c := by
  unfold Board.get_digits_available
  rw [h]

/-- C8 (amended): on a fully filled grid of digits 1 to 9 with no
repetition inside any unit, is_solvable returns a solution equal to the
input at every coordinate.  The premise must be full validity: is_solved
alone does not imply the grid is filled, and on such a grid the solver
returns a board that differs from the input (see the counterexample). -/
theorem claim_C8 (b : Board) (hW : WF b)
    (hfull : ∀ i, i < 9 → ∀ j, j < 9 →
      ∃ d, d < 10 ∧ 1 ≤ d ∧ b.getItem (i, j) = some d)
    (hdist : ∀ i, i < 9 → ∀ j, j < 9 → ∀ i2, i2 < 9 → ∀ j2, j2 < 9 →
      (((i, j) : Coord) ≠ (i2, j2) → sameUnit (i, j) (i2, j2) →
        b.getItem (i, j) ≠ b.getItem (i2, j2))) :
    ∃ b2, b.is_solvable = some b2 ∧ ∀ c, b2.getItem c = b.getItem c := by
  have hfullp : ∀ i j, i < 9 → j < 9 →
      ∃ d, b.getItem (i, j) = some d ∧ 1 ≤ d ∧ d ≤ 9 := by
    intro i j hi hj
    obtain ⟨d, hlt, h1, hd⟩ := hfull i hi j hj
    exact ⟨d, hd, h1, by omega⟩
  have hdistp : ∀ c c2 : Coord, inRange c → inRange c2 → c ≠ c2 →
      sameUnit c c2 → b.getItem c ≠ b.getItem c2 := by
    intro c c2 hc hc2 hne hsu
    have := hdist c.1 hc.1 c.2 hc.2 c2.1 hc2.1 c2.2 hc2.2
      (by simpa using hne) (by simpa using hsu)
    simpa using this
  have hvf := validFull_digits b hW hfullp hdistp
  have hdg : ∀ c, b.new_board.get_digits_available c
      = b.get_digits_available c :=
    fun c => digits_data_eq _ _ (new_board_data b) c
  have hgate : staticConsistent b.new_board = true := by
    rw [staticConsistent, List.all_eq_true]
    intro c hc
    obtain ⟨h1, h2, h3⟩ := (new_board_static_mem b hW c).1 hc
    rcases hv : b.getItem c with _ | v
    · exact absurd hv h3
    have hg2 : b.new_board.getItem c = some v := by
      rw [new_board_getItem]; exact hv
    rw [hg2]
    simp only [decide_eq_true_eq]
    rw [hdg c, hvf c ⟨h1, h2⟩ v hv]
    simp
  have hall : ∀ c2, inRange c2 → b.new_board.is_available c2 = false := by
    intro c2 hr
    obtain ⟨ci, cj⟩ := c2
    obtain ⟨d, hd, h1d, h9d⟩ := hfullp ci cj hr.1 hr.2
    exact (is_available_false_iff _ _).2
      ((new_board_static_mem b hW (ci, cj)).2
        ⟨hr.1, hr.2, by rw [hd]; simp⟩)
  have hrec := rec_allstatic 81 b.new_board (0, 0) (by decide) (by decide)
    (by decide) hall
  have hsol : b.new_board.is_solved = true := by
    rw [is_solved_iff]
    intro i j hi hj
    obtain ⟨d, hd, h1d, h9d⟩ := hfullp i j hi hj
    rw [hdg (i, j), hvf (i, j) ⟨hi, hj⟩ d hd]
    rfl
  refine ⟨b.new_board, ?_, fun c => new_board_getItem b c⟩
  rw [is_solvable_unfold, if_pos hgate, hrec]
  show (if b.new_board.is_solved = true then some b.new_board else none)
      = some b.new_board
  rw [if_pos hsol]

/-- C8 counterexample: g80 satisfies is_solved, yet the solver's output
holds 1 at the corner where the input is empty, so the returned grid is
not equal to the input at every coordinate. -/
theorem claim_C8_counterexample :
    (mkBoard g80).is_solved = true ∧
    (mkBoard g80).getItem (0, 0) = none ∧
    Option.map (fun b2 => b2.getItem (0, 0)) (mkBoard g80).is_solvable
      = some (some 1) :=
  ⟨by decide, by decide, by decide⟩

set_option synthInstance.maxSize 1000 in
/-- C8 witness: the full valid grid SGrid is returned unchanged. -/
theorem claim_C8_witness :
    ∃ b2, (mkBoard SGrid).is_solvable = some b2 ∧
      ∀ c, b2.getItem c = (mkBoard SGrid).getItem c :=
  claim_C8 (mkBoard SGrid) (by decide) (by decide) (by decide)

/-- C9: from any cursor reachable from (0, 0), each recursive call
advances the row-major index by one, and with fuel for the 81 cells the
search always terminates with a boolean result. -/
theorem claim_C9 (b : Board) (c : Coord) (hc9 : c.2 < 9)
    (hle : cidx c ≤ 81) :
    cidx (next_coord c) = cidx c + 1 ∧
    (recursion_solve 81 b c).isSome = true :=
  ⟨(next_coord_facts c hc9).1,
   rec_total 81 b c hc9 hle (by omega)⟩

/-- C9 witness: the search from the origin of g80. -/
theorem claim_C9_witness :
    cidx (next_coord (0, 0)) = cidx (0, 0) + 1 ∧
    (recursion_solve 81 (mkBoard g80) (0, 0)).isSome = true :=
  claim_C9 (mkBoard g80) (0, 0) (by decide) (by decide)

/-- C10: the private copy re-derives its fixed set from every non-empty
cell; hence any returned solution agrees with the input at every
coordinate that was non-empty in the input, and a duplicated digit whose
cell is not among the original fixed ones still sends the consistency
gate to failure, so is_solvable returns none without search. -/
theorem claim_C10 (b : Board) (hW : WF b) :
    (∀ c, c ∈ b.new_board.static_digits_index ↔
      c.1 < 9 ∧ c.2 < 9 ∧ b.getItem c ≠ none) ∧
    (∀ b2, b.is_solvable = some b2 →
      ∀ c, inRange c → b.getItem c ≠ none → b2.getItem c = b.getItem c) ∧
    (∀ i j1 j2 d, i < 9 → j1 < 9 → j2 < 9 → j1 ≠ j2 →
      (i, j2) ∉ b.static_digits_index →
      b.getItem (i, j1) = some d → b.getItem (i, j2) = some d →
      staticConsistent b.new_board = false ∧ b.is_solvable = none) := by
  refine ⟨fun c => new_board_static_mem b hW c, ?_, ?_⟩
  · intro b2 h c hc hne
    rw [is_solvable_unfold] at h
    by_cases hg : staticConsistent b.new_board
    swap
    · rw [if_neg hg] at h; exact absurd h (by simp)
    rw [if_pos hg] at h
    rcases hrec : recursion_solve 81 b.new_board (0, 0) with _ | ⟨b3, res⟩
    · rw [hrec] at h; exact absurd h (by simp)
    rw [hrec] at h
    replace h : (if b3.is_solved = true then some b3 else none) = some b2 := h
    by_cases hsol : b3.is_solved
    swap
    · rw [if_neg hsol] at h; exact absurd h (by simp)
    rw [if_pos hsol] at h
    obtain rfl : b3 = b2 := by injection h
    have hcs : c ∈ b.new_board.static_digits_index :=
      (new_board_static_mem b hW c).2 ⟨hc.1, hc.2, hne⟩
    have hav : b.new_board.is_available c = false :=
      (is_available_false_iff _ c).2 hcs
    have hfr := rec_frame 81 b.new_board (0, 0) (b3, res) (by decide)
      hrec c (Or.inl hav)
    rw [new_board_getItem] at hfr
    exact hfr
  · intro i j1 j2 d hi hj1 hj2 hne hnf h1 h2
    exact row_dup_gate b i j1 j2 d hW hi hj1 hj2 hne h1 h2

/-- C10 witness: on a board holding the duplicated grid with an empty
original fixed set, the cell (0, 1) is re-derived as fixed in the copy,
and the duplicate sends the gate to failure with no solution. -/
theorem claim_C10_witness :
    ((0, 1) ∈ (Board.mk gdup []).new_board.static_digits_index ↔
      (0 : Nat) < 9 ∧ (1 : Nat) < 9 ∧
      (Board.mk gdup []).getItem (0, 1) ≠ none) ∧
    staticConsistent (Board.mk gdup []).new_board = false ∧
    (Board.mk gdup []).is_solvable = none :=
  have H := claim_C10 (Board.mk gdup []) (by decide)
  ⟨H.1 (0, 1),
   H.2.2 0 0 1 2 (by decide) (by decide) (by decide) (by decide)
     (by decide) (by decide) (by decide)⟩
